import Mathlib

/-!
Shallow embedding of `src/src/dpll.rs` (a DPLL SAT solver).

The Rust code works on:
  * `Literal(u16, bool)`  — a variable identifier and a polarity;
  * `Vec<Vec<Literal>>`   — a CNF formula, a list of clauses;
  * `&mut [Option<bool>]` — the assignment array, one slot per variable.

We model a `u16` variable identifier as a `Nat`; the two places where the
Rust code narrows a `usize` to a `u16` (`i as u16` in `pure_lit_elim` and
`x as u16` in `dpll`) are modelled with an explicit `% 65536`.
Mutation is modelled by explicit state passing: each function returns the
updated assignment and formula.  The recursive driver `dpll` is modelled
with explicit fuel (one unit per recursive call); `DRes.fuelOut` means the
fuel ran out, `DRes.crash` models a Rust panic (`expect`/`unwrap`/index out
of bounds), and `DRes.ok sat a f` is a normal return of `sat` with the
final contents of the assignment and formula.
-/

/-- Model of the Rust `Literal(u16, bool)`: variable identifier and polarity. -/
structure Literal where
  var : Nat
  pol : Bool
deriving DecidableEq, Repr

/-- Model of `&mut [Option<bool>]`: one optional truth value per variable slot. -/
abbrev Assignment := List (Option Bool)

/-- Model of `Vec<Vec<Literal>>`: a CNF formula as a list of clauses. -/
abbrev Formula := List (List Literal)

/-- Reading slot `i` of the assignment array; out of bounds reads give `none`
(the Rust code never reads out of bounds under the documented precondition). -/
def slot : Assignment → Nat → Option Bool
  | [], _ => none
  | x :: _, 0 => x
  | _ :: xs, n + 1 => slot xs n

/-- Number of unassigned (`None`) slots. -/
def countNone : Assignment → Nat
  | [] => 0
  | none :: xs => countNone xs + 1
  | some _ :: xs => countNone xs

/-- Model of `fn is_unit(c: &[Literal]) -> bool { c.len() == 1 }`. -/
def is_unit (c : List Literal) : Bool :=
  c.length == 1

/-- First loop of `unit_prop`: scan the clauses in order; every clause of
size 1 records its literal's polarity into the assignment (overwriting any
previous value) and is pushed onto the `units` list. -/
def collectUnits (a : Assignment) : Formula → Assignment × List (Nat × Bool)
  | [] => (a, [])
  | c :: rest =>
    match c with
    | [l] =>
      let p := collectUnits (a.set l.var (some l.pol)) rest
      (p.1, (l.var, l.pol) :: p.2)
    | _ => collectUnits a rest

/-- Inner `while iy < clause.len()` loop of `unit_prop` for one unit
`(id, val)`: a literal on `id` with the same polarity deletes the whole
clause (result `none`); a literal on `id` with the opposite polarity is
deleted from the clause; anything touched sets the changed flag. -/
def rewClause (id : Nat) (val : Bool) : List Literal → Option (List Literal) × Bool
  | [] => (some [], false)
  | l :: rest =>
    if l.var = id then
      if l.pol = val then (none, true)
      else
        let p := rewClause id val rest
        (p.1, true)
    else
      let p := rewClause id val rest
      (p.1.map (fun c => l :: c), p.2)

/-- Outer `while ix < f.len()` loop of `unit_prop` for one unit: clauses
rewritten left to right, deleted clauses dropped, order preserved. -/
def rewForm (id : Nat) (val : Bool) : Formula → Formula × Bool
  | [] => ([], false)
  | c :: rest =>
    let pc := rewClause id val c
    let pr := rewForm id val rest
    match pc.1 with
    | none => (pr.1, true)
    | some c' => (c' :: pr.1, pc.2 || pr.2)

/-- The `for (id, val) in units` loop of `unit_prop`, threading the changed flag. -/
def rewAll : List (Nat × Bool) → Formula → Bool → Formula × Bool
  | [], f, ch => (f, ch)
  | (id, val) :: us, f, ch =>
    let p := rewForm id val f
    rewAll us p.1 (ch || p.2)

/-- Model of `fn unit_prop`: collect all unit clauses (recording their
polarities into the assignment in clause order), then—unless there were
none—rewrite the formula for each recorded unit; returns the new
assignment, the new formula and the changed flag. -/
def unit_prop (a : Assignment) (f : Formula) : Assignment × Formula × Bool :=
  let p := collectUnits a f
  if p.2.isEmpty then (p.1, f, false)
  else
    let q := rewAll p.2 f false
    (p.1, q.1, q.2)

/-- Size measure used to justify termination of `full_unit_prop`:
total number of clauses plus literals. -/
def fsize : Formula → Nat
  | [] => 0
  | c :: rest => c.length + 1 + fsize rest

/-- Fueled loop of `fn full_unit_prop`; the fuel is only a structural
recursion device, proved sufficient (and irrelevant) below. -/
def fullUPAux : Nat → Assignment → Formula → Assignment × Formula
  | 0, a, f => (a, f)
  | n + 1, a, f =>
    let p := unit_prop a f
    if p.2.2 then fullUPAux n p.1 p.2.1 else (p.1, p.2.1)

/-- Model of `fn full_unit_prop`: iterate `unit_prop` until it reports no
change.  `fsize f + 1` rounds always suffice since every changed round
strictly shrinks the formula. -/
def full_unit_prop (a : Assignment) (f : Formula) : Assignment × Formula :=
  fullUPAux (fsize f + 1) a f

/-- Inner literal scan of `fn is_pure` over one clause, carrying the
`seen`/`val` state as an `Option Bool`; `none` result means the early
`return None` on a polarity mismatch was taken. -/
def scanLits (v : Nat) (st : Option Bool) : List Literal → Option (Option Bool)
  | [] => some st
  | l :: rest =>
    if l.var = v then
      match st with
      | some w => if w = l.pol then scanLits v st rest else none
      | none => scanLits v (some l.pol) rest
    else scanLits v st rest

/-- Clause loop of `fn is_pure`. -/
def scanClauses (v : Nat) (st : Option Bool) : Formula → Option (Option Bool)
  | [] => some st
  | c :: rest =>
    match scanLits v st c with
    | none => none
    | some st' => scanClauses v st' rest

/-- Model of `fn is_pure`: `some b` iff variable `v` occurs in the formula
and every occurrence has polarity `b`. -/
def is_pure (v : Nat) (f : Formula) : Option Bool :=
  match scanClauses v none f with
  | none => none
  | some st => st

/-- One iteration of the `for (i, v) in var_assigns.iter_mut().enumerate()`
loop of `fn pure_lit_elim` at slot `i`: if variable `i as u16` is pure with
polarity `b`, set slot `i` to `b`, delete every clause containing the pure
literal, and append the unit clause recording the decision. -/
def plStep (i : Nat) (st : Assignment × Formula) : Assignment × Formula :=
  match is_pure (i % 65536) st.2 with
  | some b =>
    (st.1.set i (some b),
      (st.2.filter fun c => ! c.any fun l => l.var == i % 65536 && l.pol == b)
        ++ [[⟨i % 65536, b⟩]])
  | none => st

/-- Model of `fn pure_lit_elim`: the slot loop, in ascending index order. -/
def pure_lit_elim (a : Assignment) (f : Formula) : Assignment × Formula :=
  (List.range a.length).foldl (fun st i => plStep i st) (a, f)

/-- Model of `var_assigns.iter().position(|&x| x.is_none())`. -/
def firstNone : Assignment → Option Nat
  | [] => none
  | none :: _ => some 0
  | some _ :: xs => (firstNone xs).map (· + 1)

/-- Result of a fueled run of `dpll`: out of fuel, a Rust panic, or a
normal boolean return together with the final assignment and formula. -/
inductive DRes where
  | fuelOut : DRes
  | crash : DRes
  | ok : Bool → Assignment → Formula → DRes
deriving DecidableEq, Repr

/-- Model of `fn dpll`, with explicit fuel (one unit per call).  Mirrors the
source: propagate, eliminate pure literals, test the two terminal
conditions, branch on the first unassigned slot by appending the unit
clause `{(x as u16, true)}`, and on failure set the polarity of the first
literal of the last clause to `false` and recurse again.  `.crash` models
the `expect` on no unassigned variable, the `unwrap` on an empty formula,
and the `[0]` index on an empty last clause. -/
def dpll : Nat → Assignment → Formula → DRes
  | 0, _, _ => .fuelOut
  | fuel + 1, a, f =>
    let p := full_unit_prop a f
    let q := pure_lit_elim p.1 p.2
    if q.2.isEmpty then .ok true q.1 q.2
    else if q.2.any List.isEmpty then .ok false q.1 q.2
    else
      match firstNone q.1 with
      | none => .crash
      | some x =>
        match dpll fuel q.1 (q.2 ++ [[⟨x % 65536, true⟩]]) with
        | .fuelOut => .fuelOut
        | .crash => .crash
        | .ok true a2 f2 => .ok true a2 f2
        | .ok false a2 f2 =>
          match f2.getLast? with
          | none => .crash
          | some [] => .crash
          | some (l :: ls) => dpll fuel a2 (f2.dropLast ++ [⟨l.var, false⟩ :: ls])

/-- A literal is made true by the (partial) assignment contents: the slot of
its variable holds exactly its polarity. -/
def litTrue (a : Assignment) (l : Literal) : Bool :=
  slot a l.var == some l.pol

/-- At least one literal of the clause is made true by the assignment contents. -/
def clauseSat (a : Assignment) (c : List Literal) : Bool :=
  c.any (litTrue a)

/-- Every clause has at least one literal made true by the assignment contents. -/
def formSat (a : Assignment) (f : Formula) : Bool :=
  f.all (clauseSat a)

/-- Truth of a literal under a total assignment (one `Bool` per variable). -/
def evalLit (τ : List Bool) (l : Literal) : Bool :=
  τ.getD l.var false == l.pol

/-- Truth of a clause (a disjunction) under a total assignment. -/
def evalClause (τ : List Bool) (c : List Literal) : Bool :=
  c.any (evalLit τ)

/-- Truth of a CNF formula (a conjunction of clauses) under a total assignment. -/
def evalForm (τ : List Bool) (f : Formula) : Bool :=
  f.all (evalClause τ)

-- Sanity checks mirroring the repository's own test suite.

/-- A formula holds a fresh unit clause: a singleton clause whose variable
is in range and still unassigned.  The branch step of `dpll` always pushes
one before recursing. -/
def hasFreshUnit (a : Assignment) (f : Formula) : Prop :=
  ∃ l : Literal, [l] ∈ f ∧ l.var < a.length ∧ slot a l.var = none

/-- The assignment of the C4 nontermination counterexample: 65536 assigned
slots followed by one unassigned slot (index 65536). -/
def badA : Assignment := List.replicate 65536 (some true) ++ [none]

/-- The formula of the C4 nontermination counterexample: two binary clauses
over variables 1 and 2, with no unit, no pure literal and no empty clause. -/
def badF : Formula := [[⟨1, true⟩, ⟨2, true⟩], [⟨1, false⟩, ⟨2, false⟩]]

/-- The formula of the C1 soundness counterexample: 65535 unit clauses
`{(i,false)}` for `i = 0..65534`, then the clause `{0F,1T}`, then the
clause `{65535T,65535T}` (variable 65535 occurs only positively). -/
def bigF : Formula :=
  ((List.range' 0 65535).map fun i => [⟨i, false⟩]) ++
    [[⟨0, false⟩, ⟨1, true⟩], [⟨65535, true⟩, ⟨65535, true⟩]]

/-- The all-unassigned 65537-slot array of the C1 counterexample. -/
def bigA0 : Assignment := List.replicate 65537 none

/-- State after the first propagation round on `bigF`. -/
def bigAP : Assignment := List.replicate 65535 (some false) ++ [none, none]

/-- State after pure-literal elimination (variable 65535 pure true). -/
def bigAQ : Assignment := List.replicate 65535 (some false) ++ [some true, none]

/-- Final assignment returned by `dpll` on the C1 counterexample: slot 0
was overwritten to `some true` by the truncated branch on slot 65536. -/
def bigAF : Assignment :=
  some true :: (List.replicate 65534 (some false) ++ [some true, none])

/-- The sequence of `var_assigns[i] = Some(false)` writes performed by the
collection loop of `unit_prop` on a block of unit clauses. -/
def setFalseRange : Assignment → Nat → Nat → Assignment
  | a, _, 0 => a
  | a, s, k + 1 => setFalseRange (a.set s (some false)) (s + 1) k

/-- The final assignment extends an earlier one: every assigned slot keeps
its exact value (values are never changed on a successful search path). -/
def extendsA (a a' : Assignment) : Prop :=
  ∀ v b, slot a v = some b → slot a' v = some b

/-- The assignment agrees with the formula: every literal occurrence of an
assigned variable carries the assigned polarity.  This is the central
invariant of the successful search path: propagation strips assigned
variables and the only clauses ever pushed carry the assigned values. -/
def agrees (a : Assignment) (f : Formula) : Prop :=
  ∀ c ∈ f, ∀ l ∈ c, ∀ b, slot a l.var = some b → l.pol = b

/-- All variable identifiers of the formula lie below `n`. -/
def varsBelow (n : Nat) (f : Formula) : Prop :=
  ∀ c ∈ f, ∀ l ∈ c, l.var < n

theorem rewClause_some_length {id val c c'} (h : (rewClause id val c).1 = some c') :
    c'.length ≤ c.length := by
  induction c generalizing c' with
  | nil => simp [rewClause] at h; simp [← h]
  | cons l rest ih =>
    simp only [rewClause] at h
    by_cases hv : l.var = id
    · simp only [hv, if_pos rfl] at h
      by_cases hp : l.pol = val
      · simp [hp] at h
      · simp only [hp, if_neg hp] at h
        exact Nat.le_succ_of_le (ih h)
    · simp only [if_neg hv] at h
      cases hr : (rewClause id val rest).1 with
      | none => rw [hr] at h; simp at h
      | some c'' =>
        rw [hr] at h
        simp at h
        subst h
        simpa using Nat.succ_le_succ (ih hr)

theorem rewClause_unchanged {id val c} (h : (rewClause id val c).2 = false) :
    (rewClause id val c).1 = some c := by
  induction c with
  | nil => simp [rewClause]
  | cons l rest ih =>
    simp only [rewClause] at h ⊢
    by_cases hv : l.var = id
    · by_cases hp : l.pol = val
      · simp [hv, hp] at h
      · simp [hv, hp] at h
    · simp only [if_neg hv] at h ⊢
      rw [ih h]
      rfl

theorem rewClause_changed_length {id val c c'}
    (hc : (rewClause id val c).1 = some c') (h : (rewClause id val c).2 = true) :
    c'.length < c.length := by
  induction c generalizing c' with
  | nil => simp [rewClause] at h
  | cons l rest ih =>
    simp only [rewClause] at hc h
    by_cases hv : l.var = id
    · simp only [hv, if_pos rfl] at hc h
      by_cases hp : l.pol = val
      · simp [hp] at hc
      · simp only [hp, if_neg hp] at hc
        exact Nat.lt_succ_of_le (rewClause_some_length hc)
    · simp only [if_neg hv] at hc h
      cases hr : (rewClause id val rest).1 with
      | none => rw [hr] at hc; simp at hc
      | some c'' =>
        rw [hr] at hc
        simp at hc
        subst hc
        simpa using Nat.succ_lt_succ (ih hr h)

theorem rewForm_size (id val f) : fsize (rewForm id val f).1 ≤ fsize f := by
  induction f with
  | nil => simp [rewForm, fsize]
  | cons c rest ih =>
    simp only [rewForm]
    cases hc : (rewClause id val c).1 with
    | none =>
      simp only [fsize]
      omega
    | some c' =>
      simp only [fsize]
      have := rewClause_some_length hc
      omega

theorem rewForm_unchanged {id val f} (h : (rewForm id val f).2 = false) :
    (rewForm id val f).1 = f := by
  induction f with
  | nil => simp [rewForm]
  | cons c rest ih =>
    simp only [rewForm] at h ⊢
    cases hc : (rewClause id val c).1 with
    | none => simp [hc] at h
    | some c' =>
      simp only [hc] at h ⊢
      simp at h ⊢
      obtain ⟨h1, h2⟩ := h
      constructor
      · have := rewClause_unchanged h1
        rw [hc] at this
        exact Option.some.inj this
      · exact ih h2

theorem rewForm_changed_size {id val f} (h : (rewForm id val f).2 = true) :
    fsize (rewForm id val f).1 < fsize f := by
  induction f with
  | nil => simp [rewForm] at h
  | cons c rest ih =>
    simp only [rewForm] at h ⊢
    cases hc : (rewClause id val c).1 with
    | none =>
      simp only [hc, fsize]
      have := rewForm_size id val rest
      omega
    | some c' =>
      simp only [hc] at h ⊢
      simp only [fsize]
      simp at h
      cases h2 : (rewClause id val c).2 with
      | true =>
        have hlt := rewClause_changed_length hc h2
        have := rewForm_size id val rest
        omega
      | false =>
        have hcc := rewClause_unchanged h2
        rw [hc] at hcc
        simp at hcc
        subst hcc
        rcases h with h | h
        · rw [h2] at h; simp at h
        · have := ih h
          omega

theorem rewAll_size (us f ch) : fsize (rewAll us f ch).1 ≤ fsize f := by
  induction us generalizing f ch with
  | nil => simp [rewAll]
  | cons u us ih =>
    obtain ⟨id, val⟩ := u
    simp only [rewAll]
    exact le_trans (ih _ _) (rewForm_size id val f)

theorem rewAll_changed_size {us f} (h : (rewAll us f false).2 = true) :
    fsize (rewAll us f false).1 < fsize f := by
  induction us generalizing f with
  | nil => simp [rewAll] at h
  | cons u us ih =>
    obtain ⟨id, val⟩ := u
    simp only [rewAll] at h ⊢
    cases h2 : (rewForm id val f).2 with
    | true =>
      have h1 := rewForm_changed_size h2
      calc fsize (rewAll us (rewForm id val f).1 (false || true)).1
          ≤ fsize (rewForm id val f).1 := rewAll_size _ _ _
        _ < fsize f := h1
    | false =>
      simp only [h2, Bool.false_or] at h ⊢
      rw [rewForm_unchanged h2] at h ⊢
      exact ih h

theorem unit_prop_changed_size {a f} (h : (unit_prop a f).2.2 = true) :
    fsize (unit_prop a f).2.1 < fsize f := by
  unfold unit_prop at h ⊢
  by_cases he : (collectUnits a f).2.isEmpty
  · simp [he] at h
  · simp only [he, if_neg, Bool.false_eq_true, not_false_iff, if_false] at h ⊢
    simp only [Bool.not_eq_true] at he
    exact rewAll_changed_size h

theorem fullUPAux_congr :
    ∀ {n m : Nat} {a : Assignment} {f : Formula}, fsize f < n → fsize f < m →
      fullUPAux n a f = fullUPAux m a f := by
  have H : ∀ s : Nat, ∀ (a : Assignment) (f : Formula) (n m : Nat), fsize f = s →
      fsize f < n → fsize f < m → fullUPAux n a f = fullUPAux m a f := by
    intro s
    induction s using Nat.strong_induction_on with
    | _ s ih =>
      intro a f n m hs hn hm
      cases n with
      | zero => omega
      | succ n' =>
        cases m with
        | zero => omega
        | succ m' =>
          simp only [fullUPAux]
          cases hch : (unit_prop a f).2.2 with
          | true =>
            simp only [hch, if_true]
            have hsz := unit_prop_changed_size hch
            exact ih (fsize (unit_prop a f).2.1) (by omega) _ _ _ _ rfl
              (by omega) (by omega)
          | false => simp [hch]
  intro n m a f hn hm
  exact H (fsize f) a f n m rfl hn hm

/-- The defining recursion of `full_unit_prop`, independent of the fuel. -/
theorem full_unit_prop_eq (a : Assignment) (f : Formula) :
    full_unit_prop a f =
      (let p := unit_prop a f
       if p.2.2 then full_unit_prop p.1 p.2.1 else (p.1, p.2.1)) := by
  show fullUPAux (fsize f + 1) a f = _
  simp only [fullUPAux]
  cases hch : (unit_prop a f).2.2 with
  | true =>
    simp only [hch, if_true]
    have hsz := unit_prop_changed_size hch
    exact fullUPAux_congr (by omega) (Nat.lt_succ_self _)
  | false => simp [hch]

theorem check_unit_prop_single :
    unit_prop [none, none] [[⟨0, true⟩], [⟨1, false⟩, ⟨0, false⟩]] =
      ([some true, none], [[⟨1, false⟩]], true) := by decide

theorem check_unit_prop_multi :
    unit_prop [none, none, none, none]
      [[⟨0, true⟩], [⟨2, false⟩, ⟨1, false⟩], [⟨2, true⟩, ⟨3, false⟩, ⟨0, false⟩],
       [⟨1, false⟩], [⟨0, false⟩, ⟨1, true⟩]] =
      ([some true, some false, none, none], [[⟨2, true⟩, ⟨3, false⟩], []], true) := by
  decide

theorem check_pure :
    is_pure 0 [[⟨0, true⟩], [⟨1, false⟩, ⟨0, false⟩]] = none ∧
    is_pure 1 [[⟨0, true⟩], [⟨1, false⟩, ⟨0, false⟩]] = some false := by decide

theorem check_dpll_simple :
    dpll 4 [none, none, none]
      [[⟨0, true⟩, ⟨1, true⟩, ⟨2, true⟩], [⟨0, false⟩, ⟨1, true⟩, ⟨2, false⟩],
       [⟨1, false⟩, ⟨2, true⟩]] =
      .ok true [some true, some true, some true] [] := by decide

/-- C2: the claim asserts that whenever `dpll` returns `false` on an
initially unassigned array, no total assignment satisfies the original
clauses.  Counter-evidence on the code: on the three clauses
`{0F,0F}, {2T,2F}, {0T,0F}` over 3 variables, `dpll` returns `false`
(after the failed `0 := true` branch, the backtracking step rewrites the
first literal of the *last* clause — by then the unrelated tautology
`{2T,2F}` — into `{2F,2F}`, losing the solutions with variable 0 false),
yet the total assignment `[false, false, false]` satisfies every original
clause. -/
theorem c2_completeness_failing_input :
    dpll 10 [none, none, none]
      [[⟨0, false⟩, ⟨0, false⟩], [⟨2, true⟩, ⟨2, false⟩], [⟨0, true⟩, ⟨0, false⟩]] =
      .ok false [some true, none, some false] [[], [⟨2, false⟩]] ∧
    evalForm [false, false, false]
      [[⟨0, false⟩, ⟨0, false⟩], [⟨2, true⟩, ⟨2, false⟩], [⟨0, true⟩, ⟨0, false⟩]] = true := by
  decide

/-- C3: the claim asserts that when the first recursive call returns
`false`, the pushed unit clause is still the last clause of the formula.
Counter-evidence on the code: on the four clauses
`{0T,1T},{0T,1F},{0F,1T},{0F,1F}` the driver's simplification passes leave
the formula unchanged, the branch variable is 0, and the first recursive
call — on that formula with `{(0,true)}` appended — returns `false` with
final formula `[[]]`: the pushed unit clause was consumed by unit
propagation inside the call, and the last (only) clause is the empty
conflict clause, not the pushed literal. -/
theorem c3_pushed_clause_not_last :
    full_unit_prop [none, none]
      [[⟨0, true⟩, ⟨1, true⟩], [⟨0, true⟩, ⟨1, false⟩],
       [⟨0, false⟩, ⟨1, true⟩], [⟨0, false⟩, ⟨1, false⟩]] =
      ([none, none],
       [[⟨0, true⟩, ⟨1, true⟩], [⟨0, true⟩, ⟨1, false⟩],
        [⟨0, false⟩, ⟨1, true⟩], [⟨0, false⟩, ⟨1, false⟩]]) ∧
    pure_lit_elim [none, none]
      [[⟨0, true⟩, ⟨1, true⟩], [⟨0, true⟩, ⟨1, false⟩],
       [⟨0, false⟩, ⟨1, true⟩], [⟨0, false⟩, ⟨1, false⟩]] =
      ([none, none],
       [[⟨0, true⟩, ⟨1, true⟩], [⟨0, true⟩, ⟨1, false⟩],
        [⟨0, false⟩, ⟨1, true⟩], [⟨0, false⟩, ⟨1, false⟩]]) ∧
    firstNone [none, none] = some 0 ∧
    dpll 5 [none, none]
      ([[⟨0, true⟩, ⟨1, true⟩], [⟨0, true⟩, ⟨1, false⟩],
        [⟨0, false⟩, ⟨1, true⟩], [⟨0, false⟩, ⟨1, false⟩]] ++ [[⟨0, true⟩]]) =
      .ok false [some true, some false] [[]] ∧
    ([[]] : Formula).getLast? ≠ some [⟨0, true⟩] := by
  decide

/-- C9: the claim asserts the backtracking expression
`f.last_mut().unwrap()[0]` never panics.  Counter-evidence on the code: on
the four clauses `{0T,1T},{0T,1F},{0F,1T},{0F,1F}` over 2 variables, the
first branch fails leaving the formula `[[]]`, whose last clause is empty,
so indexing `[0]` into it panics (modelled by `.crash`). -/
theorem c9_backtrack_flip_panics :
    dpll 6 [none, none]
      [[⟨0, true⟩, ⟨1, true⟩], [⟨0, true⟩, ⟨1, false⟩],
       [⟨0, false⟩, ⟨1, true⟩], [⟨0, false⟩, ⟨1, false⟩]] = .crash := by
  decide

/-- C8: running `pure_lit_elim` on the six clauses of the spec's pure
literal example with ten unassigned variables leaves exactly the four unit
clauses `{0T},{1T},{5T},{7T}` in that order and assigns variables
0, 1, 5, 7 to true (all other slots stay unassigned). -/
theorem c8_pure_literal_example :
    pure_lit_elim (List.replicate 10 none)
      [[⟨0, true⟩, ⟨3, true⟩], [⟨0, true⟩, ⟨2, false⟩, ⟨5, false⟩],
       [⟨0, true⟩, ⟨5, true⟩, ⟨9, true⟩], [⟨1, true⟩, ⟨8, true⟩],
       [⟨4, false⟩, ⟨5, true⟩, ⟨6, false⟩], [⟨4, true⟩, ⟨7, true⟩, ⟨9, false⟩]] =
      ([some true, some true, none, none, none, some true, none, some true, none, none],
       [[⟨0, true⟩], [⟨1, true⟩], [⟨5, true⟩], [⟨7, true⟩]]) := by
  decide

/-- C6 counterexample: the claim asserts `pure_lit_elim` leaves every
already-assigned slot unchanged.  On the code, with slot 0 holding
`some false` and the single clause `{0T}`, variable 0 is pure with
polarity true and the pass overwrites slot 0 with `some true`. -/
theorem c6_assigned_slot_overwritten :
    pure_lit_elim [some false] [[⟨0, true⟩]] = ([some true], [[⟨0, true⟩]]) ∧
    slot [some true] 0 ≠ slot [some false] 0 := by
  decide

theorem collectUnits_no_units {a : Assignment} {f : Formula}
    (h : ∀ c ∈ f, c.length ≠ 1) : collectUnits a f = (a, []) := by
  induction f with
  | nil => rfl
  | cons c rest ih =>
    match c with
    | [] => exact ih fun c hc => h c (List.mem_cons_of_mem _ hc)
    | [l] => exact absurd rfl (h [l] (List.mem_cons_self _ _))
    | l1 :: l2 :: ls =>
      exact ih fun c hc => h c (List.mem_cons_of_mem _ hc)

/-- C7: on a formula containing no unit clause (a propagation fixpoint),
`unit_prop` reports no change and leaves the assignment and the formula
bit-for-bit identical. -/
theorem c7_fixpoint_identity (a : Assignment) (f : Formula)
    (h : ∀ c ∈ f, c.length ≠ 1) : unit_prop a f = (a, f, false) := by
  unfold unit_prop
  rw [collectUnits_no_units h]
  rfl

/-- C7 witness: concrete fixpoint instance. -/
theorem c7_fixpoint_identity_witness :
    unit_prop [none, none] [[⟨0, true⟩, ⟨1, true⟩], []] =
      ([none, none], [[⟨0, true⟩, ⟨1, true⟩], []], false) :=
  c7_fixpoint_identity [none, none] [[⟨0, true⟩, ⟨1, true⟩], []]
    (by decide)

/-- C5: within one call of `unit_prop`, the resulting assignment is
exactly what the collection loop produced — all unit clauses are recorded
(in clause order) before any rewriting, and rewriting never touches the
assignment.  In particular, on two unit clauses that disagree on one
variable's polarity, no conflict is signalled: the call returns normally
(leaving an empty clause for the caller) and the later clause's polarity
silently overwrites the earlier one in the assignment. -/
theorem c5_units_collected_then_overwritten :
    (∀ (a : Assignment) (f : Formula), (unit_prop a f).1 = (collectUnits a f).1) ∧
    (∀ (a : Assignment) (x : Nat) (p q : Bool), p ≠ q →
      unit_prop a [[⟨x, p⟩], [⟨x, q⟩]] = (a.set x (some q), [[]], true)) := by
  constructor
  · intro a f
    unfold unit_prop
    by_cases h : (collectUnits a f).2.isEmpty <;> simp [h]
  · intro a x p q hpq
    have hq : ¬(q = p) := fun h => hpq h.symm
    simp [unit_prop, collectUnits, rewAll, rewForm, rewClause, hq, List.set_set]

/-- C5 witness: with slots initially unassigned, `{0T}` then `{0F}` leaves
variable 0 recorded as `false` (the later unit), the formula as one empty
clause, and the changed flag set. -/
theorem c5_units_collected_then_overwritten_witness :
    unit_prop [none] [[⟨0, true⟩], [⟨0, false⟩]] =
      (([none] : Assignment).set 0 (some false), [[]], true) :=
  c5_units_collected_then_overwritten.2 [none] 0 true false (by decide)

theorem slot_set_ne (l : Assignment) (n i : Nat) (v : Option Bool) (h : n ≠ i) :
    slot (l.set n v) i = slot l i := by
  induction l generalizing n i with
  | nil => simp [List.set]
  | cons x xs ih =>
    cases n with
    | zero =>
      cases i with
      | zero => exact absurd rfl h
      | succ i' => simp [List.set, slot]
    | succ n' =>
      cases i with
      | zero => simp [List.set, slot]
      | succ i' =>
        simp only [List.set, slot]
        exact ih n' i' fun he => h (by omega)

theorem scanLits_no_occ {v : Nat} {c : List Literal} (st : Option Bool)
    (h : ∀ l ∈ c, l.var ≠ v) : scanLits v st c = some st := by
  induction c generalizing st with
  | nil => rfl
  | cons l rest ih =>
    have hl : l.var ≠ v := h l (List.mem_cons_self _ _)
    simp only [scanLits, if_neg hl]
    exact ih st fun l' hl' => h l' (List.mem_cons_of_mem _ hl')

theorem scanClauses_no_occ {v : Nat} {f : Formula} (st : Option Bool)
    (h : ∀ c ∈ f, ∀ l ∈ c, l.var ≠ v) : scanClauses v st f = some st := by
  induction f generalizing st with
  | nil => rfl
  | cons c rest ih =>
    simp only [scanClauses]
    rw [scanLits_no_occ st (h c (List.mem_cons_self _ _))]
    exact ih st fun c' hc' => h c' (List.mem_cons_of_mem _ hc')

theorem is_pure_no_occ {v : Nat} {f : Formula}
    (h : ∀ c ∈ f, ∀ l ∈ c, l.var ≠ v) : is_pure v f = none := by
  unfold is_pure
  rw [scanClauses_no_occ none h]

theorem foldl_plStep_no_occ (L : List Nat) (st : Assignment × Formula) (i : Nat)
    (h : ∀ c ∈ st.2, ∀ l ∈ c, l.var ≠ i % 65536) :
    slot (L.foldl (fun st j => plStep j st) st).1 i = slot st.1 i := by
  induction L generalizing st with
  | nil => rfl
  | cons j rest ih =>
    simp only [List.foldl_cons]
    cases hp : is_pure (j % 65536) st.2 with
    | none =>
      have hid : plStep j st = st := by unfold plStep; rw [hp]
      rw [hid]
      exact ih st h
    | some b =>
      have hne : j % 65536 ≠ i % 65536 := by
        intro he
        rw [he, is_pure_no_occ h] at hp
        exact Option.noConfusion hp
      have hji : j ≠ i := fun he => hne (by rw [he])
      have hstep : plStep j st =
          (st.1.set j (some b),
            (st.2.filter fun c => ! c.any fun l => l.var == j % 65536 && l.pol == b)
              ++ [[⟨j % 65536, b⟩]]) := by
        unfold plStep; rw [hp]
      rw [hstep]
      rw [ih _ ?hocc]
      · exact slot_set_ne st.1 j i (some b) hji
      case hocc =>
        intro c hc l hl
        rcases List.mem_append.mp hc with hc1 | hc2
        · exact h c (List.mem_filter.mp hc1).1 l hl
        · have : c = [⟨j % 65536, b⟩] := by simpa using hc2
          subst this
          have : l = ⟨j % 65536, b⟩ := by simpa using hl
          subst this
          exact hne

/-- C6 amended: `pure_lit_elim` disregards the prior assignment status of a
slot — it may overwrite an already-assigned slot when its variable is pure
(see the counterexample) — but a slot whose variable (the slot index
truncated to `u16`) never occurs in the formula is left unchanged by the
elimination pass. -/
theorem c6_untouched_when_var_absent (a : Assignment) (f : Formula) (i : Nat)
    (h : ∀ c ∈ f, ∀ l ∈ c, l.var ≠ i % 65536) :
    slot (pure_lit_elim a f).1 i = slot a i := by
  unfold pure_lit_elim
  exact foldl_plStep_no_occ (List.range a.length) (a, f) i h

/-- C6 amended witness: slot 0 is assigned and variable 0 is absent from
the formula, so the pass leaves the slot unchanged. -/
theorem c6_untouched_when_var_absent_witness :
    slot (pure_lit_elim [some true] [[⟨1, false⟩]]).1 0 = slot [some true] 0 :=
  c6_untouched_when_var_absent [some true] [[⟨1, false⟩]] 0 (by decide)

theorem slot_set_isSome_mono (a : Assignment) (n : Nat) (b : Bool) (i : Nat)
    (h : (slot a i).isSome = true) : (slot (a.set n (some b)) i).isSome = true := by
  induction a generalizing n i with
  | nil => simp [slot] at h
  | cons x xs ih =>
    cases n with
    | zero =>
      cases i with
      | zero => simp [List.set, slot]
      | succ i' => simpa [List.set, slot] using h
    | succ n' =>
      cases i with
      | zero => simpa [List.set, slot] using h
      | succ i' =>
        simp only [List.set, slot] at h ⊢
        exact ih n' i' h

theorem slot_set_self (a : Assignment) (n : Nat) (v : Option Bool) (h : n < a.length) :
    slot (a.set n v) n = v := by
  induction a generalizing n with
  | nil => simp at h
  | cons x xs ih =>
    cases n with
    | zero => simp [List.set, slot]
    | succ n' =>
      simp only [List.set, slot]
      exact ih n' (by simpa using h)

theorem collectUnits_length (a : Assignment) (f : Formula) :
    (collectUnits a f).1.length = a.length := by
  induction f generalizing a with
  | nil => rfl
  | cons c rest ih =>
    match c with
    | [] => exact ih a
    | [l] => simpa [collectUnits, List.length_set] using ih (a.set l.var (some l.pol))
    | l1 :: l2 :: ls => exact ih a

theorem unit_prop_fst (a : Assignment) (f : Formula) :
    (unit_prop a f).1 = (collectUnits a f).1 := by
  unfold unit_prop
  by_cases h : (collectUnits a f).2.isEmpty <;> simp [h]

theorem unit_prop_length (a : Assignment) (f : Formula) :
    (unit_prop a f).1.length = a.length := by
  rw [unit_prop_fst]; exact collectUnits_length a f

theorem fullUPAux_length (n : Nat) (a : Assignment) (f : Formula) :
    (fullUPAux n a f).1.length = a.length := by
  induction n generalizing a f with
  | zero => rfl
  | succ n ih =>
    simp only [fullUPAux]
    cases hch : (unit_prop a f).2.2 with
    | true =>
      simp only [hch, if_true]
      rw [ih]
      exact unit_prop_length a f
    | false =>
      simp only [hch, Bool.false_eq_true, if_false]
      exact unit_prop_length a f

theorem full_unit_prop_length (a : Assignment) (f : Formula) :
    (full_unit_prop a f).1.length = a.length :=
  fullUPAux_length _ a f

theorem plStep_length (j : Nat) (st : Assignment × Formula) :
    (plStep j st).1.length = st.1.length := by
  unfold plStep
  cases is_pure (j % 65536) st.2 with
  | none => rfl
  | some b => simp [List.length_set]

theorem foldl_plStep_length (L : List Nat) (st : Assignment × Formula) :
    ((L.foldl (fun st j => plStep j st) st)).1.length = st.1.length := by
  induction L generalizing st with
  | nil => rfl
  | cons j rest ih =>
    simp only [List.foldl_cons]
    rw [ih (plStep j st)]
    exact plStep_length j st

theorem pure_lit_elim_length (a : Assignment) (f : Formula) :
    (pure_lit_elim a f).1.length = a.length :=
  foldl_plStep_length _ (a, f)

theorem collectUnits_slot_mono (a : Assignment) (f : Formula) (i : Nat)
    (h : (slot a i).isSome = true) : (slot (collectUnits a f).1 i).isSome = true := by
  induction f generalizing a with
  | nil => exact h
  | cons c rest ih =>
    match c with
    | [] => exact ih a h
    | [l] =>
      simp only [collectUnits]
      exact ih _ (slot_set_isSome_mono a l.var l.pol i h)
    | l1 :: l2 :: ls => exact ih a h

theorem unit_prop_slot_mono (a : Assignment) (f : Formula) (i : Nat)
    (h : (slot a i).isSome = true) : (slot (unit_prop a f).1 i).isSome = true := by
  rw [unit_prop_fst]; exact collectUnits_slot_mono a f i h

theorem fullUPAux_slot_mono (n : Nat) (a : Assignment) (f : Formula) (i : Nat)
    (h : (slot a i).isSome = true) : (slot (fullUPAux n a f).1 i).isSome = true := by
  induction n generalizing a f with
  | zero => exact h
  | succ n ih =>
    simp only [fullUPAux]
    cases hch : (unit_prop a f).2.2 with
    | true =>
      simp only [hch, if_true]
      exact ih _ _ (unit_prop_slot_mono a f i h)
    | false =>
      simp only [hch, Bool.false_eq_true, if_false]
      exact unit_prop_slot_mono a f i h

theorem full_unit_prop_slot_mono (a : Assignment) (f : Formula) (i : Nat)
    (h : (slot a i).isSome = true) : (slot (full_unit_prop a f).1 i).isSome = true :=
  fullUPAux_slot_mono _ a f i h

theorem plStep_slot_mono (j : Nat) (st : Assignment × Formula) (i : Nat)
    (h : (slot st.1 i).isSome = true) : (slot (plStep j st).1 i).isSome = true := by
  unfold plStep
  cases is_pure (j % 65536) st.2 with
  | none => exact h
  | some b => exact slot_set_isSome_mono st.1 j b i h

theorem pure_lit_elim_slot_mono (a : Assignment) (f : Formula) (i : Nat)
    (h : (slot a i).isSome = true) : (slot (pure_lit_elim a f).1 i).isSome = true := by
  unfold pure_lit_elim
  generalize List.range a.length = L
  induction L generalizing a f with
  | nil => exact h
  | cons j rest ih =>
    simp only [List.foldl_cons]
    have h1 := plStep_slot_mono j (a, f) i h
    exact ih (plStep j (a, f)).1 (plStep j (a, f)).2 h1

theorem countNone_le_of_mono (a b : Assignment) (hlen : a.length = b.length)
    (h : ∀ i, (slot a i).isSome = true → (slot b i).isSome = true) :
    countNone b ≤ countNone a := by
  induction a generalizing b with
  | nil =>
    cases b with
    | nil => exact Nat.le_refl _
    | cons y ys => simp at hlen
  | cons x xs ih =>
    cases b with
    | nil => simp at hlen
    | cons y ys =>
      have htail : countNone ys ≤ countNone xs :=
        ih ys (by simpa using hlen) (fun i hi => h (i + 1) hi)
      cases x with
      | none =>
        cases y with
        | none => simpa [countNone] using htail
        | some yb => simp only [countNone]; omega
      | some xb =>
        have hy := h 0 (by simp [slot])
        cases y with
        | none => simp [slot] at hy
        | some yb => simpa [countNone] using htail

theorem countNone_lt_of_mono (a b : Assignment) (j : Nat) (hlen : a.length = b.length)
    (h : ∀ i, (slot a i).isSome = true → (slot b i).isSome = true)
    (hja : slot a j = none) (hjb : (slot b j).isSome = true) :
    countNone b < countNone a := by
  induction a generalizing b j with
  | nil =>
    cases b with
    | nil => simp [slot] at hjb
    | cons y ys => simp at hlen
  | cons x xs ih =>
    cases b with
    | nil => simp at hlen
    | cons y ys =>
      have hlen' : xs.length = ys.length := by simpa using hlen
      have htailmono : ∀ i, (slot xs i).isSome = true → (slot ys i).isSome = true :=
        fun i hi => h (i + 1) hi
      cases j with
      | zero =>
        have hx : x = none := hja
        subst hx
        cases y with
        | none => simp [slot] at hjb
        | some yb =>
          have := countNone_le_of_mono xs ys hlen' htailmono
          simp only [countNone]
          omega
      | succ j' =>
        have htail : countNone ys < countNone xs := ih ys j' hlen' htailmono hja hjb
        cases x with
        | none =>
          cases y with
          | none => simp only [countNone]; omega
          | some yb => simp only [countNone]; omega
        | some xb =>
          have hy := h 0 (by simp [slot])
          cases y with
          | none => simp [slot] at hy
          | some yb => simpa [countNone] using htail

theorem countNone_pos_of_slot_none (a : Assignment) (j : Nat)
    (h : slot a j = none) (hj : j < a.length) : 0 < countNone a := by
  induction a generalizing j with
  | nil => simp at hj
  | cons x xs ih =>
    cases j with
    | zero =>
      have hx : x = none := h
      subst hx
      simp [countNone]
    | succ j' =>
      cases x with
      | none => simp [countNone]
      | some xb =>
        have := ih j' h (by simpa using hj)
        simpa [countNone] using this

theorem firstNone_some_lt (a : Assignment) (x : Nat) (h : firstNone a = some x) :
    x < a.length := by
  induction a generalizing x with
  | nil => simp [firstNone] at h
  | cons o xs ih =>
    cases o with
    | none =>
      simp only [firstNone] at h
      injection h with h
      subst h
      simp
    | some b =>
      simp only [firstNone, Option.map_eq_some'] at h
      obtain ⟨x', hx', rfl⟩ := h
      have := ih x' hx'
      simpa using Nat.succ_lt_succ this

theorem firstNone_some_none (a : Assignment) (x : Nat) (h : firstNone a = some x) :
    slot a x = none := by
  induction a generalizing x with
  | nil => simp [firstNone] at h
  | cons o xs ih =>
    cases o with
    | none =>
      simp [firstNone] at h
      simp [← h, slot]
    | some b =>
      simp only [firstNone, Option.map_eq_some'] at h
      obtain ⟨x', hx', rfl⟩ := h
      exact ih x' hx'

theorem dpll_ok_length :
    ∀ (fuel : Nat) (a : Assignment) (f : Formula) (r : Bool) (a' : Assignment)
      (f' : Formula), dpll fuel a f = .ok r a' f' → a'.length = a.length := by
  intro fuel
  induction fuel with
  | zero => intro a f r a' f' h; simp [dpll] at h
  | succ fuel ih =>
    intro a f r a' f' h
    unfold dpll at h
    simp only [] at h
    have hqlen : (pure_lit_elim (full_unit_prop a f).1 (full_unit_prop a f).2).1.length
        = a.length := by
      rw [pure_lit_elim_length, full_unit_prop_length]
    split at h
    · injection h with h1 h2 h3
      subst h2
      exact hqlen
    · split at h
      · injection h with h1 h2 h3
        subst h2
        exact hqlen
      · split at h
        · exact absurd h (by simp)
        · rename_i x hx
          split at h
          · exact absurd h (by simp)
          · exact absurd h (by simp)
          · rename_i a2 f2 hrec
            injection h with h1 h2 h3
            subst h2
            rw [ih _ _ _ _ _ hrec]
            exact hqlen
          · rename_i a2 f2 hrec
            split at h
            · exact absurd h (by simp)
            · exact absurd h (by simp)
            · rename_i l ls hlast
              rw [ih _ _ _ _ _ h, ih _ _ _ _ _ hrec]
              exact hqlen

theorem simp_slot_mono (a : Assignment) (f : Formula) (i : Nat)
    (h : (slot a i).isSome = true) :
    (slot (pure_lit_elim (full_unit_prop a f).1 (full_unit_prop a f).2).1 i).isSome
      = true :=
  pure_lit_elim_slot_mono _ _ i (full_unit_prop_slot_mono a f i h)

theorem dpll_ok_slot_mono :
    ∀ (fuel : Nat) (a : Assignment) (f : Formula) (r : Bool) (a' : Assignment)
      (f' : Formula), dpll fuel a f = .ok r a' f' →
      ∀ i, (slot a i).isSome = true → (slot a' i).isSome = true := by
  intro fuel
  induction fuel with
  | zero => intro a f r a' f' h; simp [dpll] at h
  | succ fuel ih =>
    intro a f r a' f' h i hi
    unfold dpll at h
    simp only [] at h
    have hq : (slot (pure_lit_elim (full_unit_prop a f).1 (full_unit_prop a f).2).1
        i).isSome = true := simp_slot_mono a f i hi
    split at h
    · injection h with h1 h2 h3
      subst h2
      exact hq
    · split at h
      · injection h with h1 h2 h3
        subst h2
        exact hq
      · split at h
        · exact absurd h (by simp)
        · rename_i x hx
          split at h
          · exact absurd h (by simp)
          · exact absurd h (by simp)
          · rename_i a2 f2 hrec
            injection h with h1 h2 h3
            subst h2
            exact ih _ _ _ _ _ hrec i hq
          · rename_i a2 f2 hrec
            split at h
            · exact absurd h (by simp)
            · exact absurd h (by simp)
            · rename_i l ls hlast
              exact ih _ _ _ _ _ h i (ih _ _ _ _ _ hrec i hq)

theorem collectUnits_unitvar (a : Assignment) (f : Formula) (l : Literal)
    (hmem : [l] ∈ f) (hlt : l.var < a.length) :
    (slot (collectUnits a f).1 l.var).isSome = true := by
  induction f generalizing a with
  | nil => simp at hmem
  | cons c rest ih =>
    rcases List.mem_cons.mp hmem with hc | hc
    · subst hc
      simp only [collectUnits]
      have : slot (a.set l.var (some l.pol)) l.var = some l.pol :=
        slot_set_self a l.var (some l.pol) hlt
      exact collectUnits_slot_mono _ rest l.var (by simp [this])
    · match c with
      | [] => exact ih a hc hlt
      | [l'] =>
        simp only [collectUnits]
        exact ih _ hc (by simpa [List.length_set] using hlt)
      | l1 :: l2 :: ls => exact ih a hc hlt

theorem unit_prop_unitvar (a : Assignment) (f : Formula) (l : Literal)
    (hmem : [l] ∈ f) (hlt : l.var < a.length) :
    (slot (unit_prop a f).1 l.var).isSome = true := by
  rw [unit_prop_fst]
  exact collectUnits_unitvar a f l hmem hlt

theorem fullUPAux_unitvar (n : Nat) (a : Assignment) (f : Formula) (l : Literal)
    (hmem : [l] ∈ f) (hlt : l.var < a.length) :
    (slot (fullUPAux (n + 1) a f).1 l.var).isSome = true := by
  simp only [fullUPAux]
  cases hch : (unit_prop a f).2.2 with
  | true =>
    simp only [hch, if_true]
    exact fullUPAux_slot_mono n _ _ l.var (unit_prop_unitvar a f l hmem hlt)
  | false =>
    simp only [hch, Bool.false_eq_true, if_false]
    exact unit_prop_unitvar a f l hmem hlt

theorem full_unit_prop_unitvar (a : Assignment) (f : Formula) (l : Literal)
    (hmem : [l] ∈ f) (hlt : l.var < a.length) :
    (slot (full_unit_prop a f).1 l.var).isSome = true := by
  unfold full_unit_prop
  exact fullUPAux_unitvar _ a f l hmem hlt

theorem simp_unitvar (a : Assignment) (f : Formula) (l : Literal)
    (hmem : [l] ∈ f) (hlt : l.var < a.length) :
    (slot (pure_lit_elim (full_unit_prop a f).1 (full_unit_prop a f).2).1
      l.var).isSome = true :=
  pure_lit_elim_slot_mono _ _ l.var (full_unit_prop_unitvar a f l hmem hlt)

theorem dpll_ok_unitvar :
    ∀ (fuel : Nat) (a : Assignment) (f : Formula) (r : Bool) (a' : Assignment)
      (f' : Formula) (l : Literal), dpll fuel a f = .ok r a' f' →
      [l] ∈ f → l.var < a.length → (slot a' l.var).isSome = true := by
  intro fuel
  induction fuel with
  | zero => intro a f r a' f' l h; simp [dpll] at h
  | succ fuel ih =>
    intro a f r a' f' l h hmem hlt
    unfold dpll at h
    simp only [] at h
    have hq : (slot (pure_lit_elim (full_unit_prop a f).1 (full_unit_prop a f).2).1
        l.var).isSome = true := simp_unitvar a f l hmem hlt
    split at h
    · injection h with h1 h2 h3
      subst h2
      exact hq
    · split at h
      · injection h with h1 h2 h3
        subst h2
        exact hq
      · split at h
        · exact absurd h (by simp)
        · rename_i x hx
          split at h
          · exact absurd h (by simp)
          · exact absurd h (by simp)
          · rename_i a2 f2 hrec
            injection h with h1 h2 h3
            subst h2
            exact dpll_ok_slot_mono _ _ _ _ _ _ hrec l.var hq
          · rename_i a2 f2 hrec
            split at h
            · exact absurd h (by simp)
            · exact absurd h (by simp)
            · rename_i ll ls hlast
              exact dpll_ok_slot_mono _ _ _ _ _ _ h l.var
                (dpll_ok_slot_mono _ _ _ _ _ _ hrec l.var hq)

/-- C10: no operation ever un-assigns a variable.  Across `unit_prop`,
`full_unit_prop`, `pure_lit_elim` and every (normally returning) `dpll`
call — including after a failed first branch — a slot holding `some` value
still holds `some` value afterwards; values may be overwritten but never
reset to `none`. -/
theorem c10_no_unassignment :
    (∀ (a : Assignment) (f : Formula) (i : Nat), (slot a i).isSome = true →
      (slot (unit_prop a f).1 i).isSome = true) ∧
    (∀ (a : Assignment) (f : Formula) (i : Nat), (slot a i).isSome = true →
      (slot (full_unit_prop a f).1 i).isSome = true) ∧
    (∀ (a : Assignment) (f : Formula) (i : Nat), (slot a i).isSome = true →
      (slot (pure_lit_elim a f).1 i).isSome = true) ∧
    (∀ (fuel : Nat) (a : Assignment) (f : Formula) (r : Bool) (a' : Assignment)
      (f' : Formula), dpll fuel a f = .ok r a' f' →
      ∀ i, (slot a i).isSome = true → (slot a' i).isSome = true) :=
  ⟨unit_prop_slot_mono, full_unit_prop_slot_mono, pure_lit_elim_slot_mono,
   dpll_ok_slot_mono⟩

/-- C10 witness: a concrete run through all four operations starting from a
slot that is assigned; the slot is still assigned afterwards. -/
theorem c10_no_unassignment_witness :
    (slot (unit_prop [some true] [[⟨0, false⟩]]).1 0).isSome = true ∧
    (slot (full_unit_prop [some true] [[⟨0, false⟩]]).1 0).isSome = true ∧
    (slot (pure_lit_elim [some true] [[⟨0, false⟩]]).1 0).isSome = true ∧
    (slot [some true, some false] 0).isSome = true :=
  ⟨c10_no_unassignment.1 [some true] [[⟨0, false⟩]] 0 (by decide),
   c10_no_unassignment.2.1 [some true] [[⟨0, false⟩]] 0 (by decide),
   c10_no_unassignment.2.2.1 [some true] [[⟨0, false⟩]] 0 (by decide),
   c10_no_unassignment.2.2.2 2 [some false, some false] [[⟨0, true⟩]] true
     [some true, some false] [] (by decide) 0 (by decide)⟩

theorem simp_countNone_le (a : Assignment) (f : Formula) :
    countNone (pure_lit_elim (full_unit_prop a f).1 (full_unit_prop a f).2).1
      ≤ countNone a :=
  countNone_le_of_mono a _
    (by rw [pure_lit_elim_length, full_unit_prop_length])
    (fun i hi => simp_slot_mono a f i hi)

theorem simp_countNone_lt (a : Assignment) (f : Formula)
    (hfu : hasFreshUnit a f) :
    countNone (pure_lit_elim (full_unit_prop a f).1 (full_unit_prop a f).2).1
      < countNone a := by
  obtain ⟨l, hmem, hlt, hnone⟩ := hfu
  exact countNone_lt_of_mono a _ l.var
    (by rw [pure_lit_elim_length, full_unit_prop_length])
    (fun i hi => simp_slot_mono a f i hi)
    hnone
    (simp_unitvar a f l hmem hlt)

theorem dpll_no_fuelOut :
    ∀ (fuel : Nat) (a : Assignment) (f : Formula), a.length ≤ 65536 →
      (countNone a < fuel ∨ (countNone a ≤ fuel ∧ hasFreshUnit a f)) →
      dpll fuel a f ≠ .fuelOut := by
  intro fuel
  induction fuel with
  | zero =>
    intro a f hlen hdisj
    rcases hdisj with hlt | ⟨hle, l, hmem, hvlt, hnone⟩
    · omega
    · have := countNone_pos_of_slot_none a l.var hnone hvlt
      omega
  | succ fuel ih =>
    intro a f hlen hdisj
    have hkey : countNone (pure_lit_elim (full_unit_prop a f).1
        (full_unit_prop a f).2).1 ≤ fuel := by
      rcases hdisj with hlt | ⟨hle, hfu⟩
      · have := simp_countNone_le a f
        omega
      · have := simp_countNone_lt a f hfu
        omega
    unfold dpll
    simp only []
    have hqlen : (pure_lit_elim (full_unit_prop a f).1
        (full_unit_prop a f).2).1.length = a.length := by
      rw [pure_lit_elim_length, full_unit_prop_length]
    split
    · simp
    · split
      · simp
      · split
        · simp
        · rename_i x hx
          have hxlt : x < (pure_lit_elim (full_unit_prop a f).1
              (full_unit_prop a f).2).1.length := firstNone_some_lt _ x hx
          have hxnone := firstNone_some_none _ x hx
          have hx65536 : x < 65536 := by omega
          have hxmod : x % 65536 = x := Nat.mod_eq_of_lt hx65536
          have hchild : dpll fuel (pure_lit_elim (full_unit_prop a f).1
              (full_unit_prop a f).2).1
              ((pure_lit_elim (full_unit_prop a f).1 (full_unit_prop a f).2).2
                ++ [[⟨x % 65536, true⟩]]) ≠ .fuelOut := by
            apply ih _ _ (by omega)
            refine Or.inr ⟨hkey, ⟨x % 65536, true⟩, ?_, ?_, ?_⟩
            · simp
            · simpa [hxmod] using hxlt
            · simpa [hxmod] using hxnone
          split
          · rename_i hrec
            exact absurd hrec hchild
          · simp
          · simp
          · rename_i a2 f2 hrec
            have ha2len : a2.length = (pure_lit_elim (full_unit_prop a f).1
                (full_unit_prop a f).2).1.length := by
              rw [dpll_ok_length _ _ _ _ _ _ hrec, hqlen]
            have ha2x : (slot a2 x).isSome = true := by
              have := dpll_ok_unitvar _ _ _ _ _ _ ⟨x % 65536, true⟩ hrec
                (by simp) (by simpa [hxmod] using hxlt)
              simpa [hxmod] using this
            have ha2lt : countNone a2 < fuel := by
              have hmono := dpll_ok_slot_mono _ _ _ _ _ _ hrec
              have := countNone_lt_of_mono _ a2 x ha2len.symm hmono hxnone ha2x
              omega
            split
            · simp
            · simp
            · rename_i l ls hlast
              exact ih a2 _ (by omega) (Or.inl ha2lt)

/-- C4 amended: for every formula and every assignment array of size at
most 65536 (so that the `x as u16` truncation of the branch index is the
identity) whose size bounds all variable identifiers occurring in the
formula, `dpll` terminates: fuel `countNone a + 1` — one unit per level of
a recursion whose depth is bounded by the number of unassigned variables —
is never exhausted.  (For larger arrays the truncation can make the branch
step push an already-assigned variable and the recursion need not
terminate; see the counterexample.) -/
theorem c4_termination_amended (a : Assignment) (f : Formula)
    (hlen : a.length ≤ 65536)
    (hvars : ∀ c ∈ f, ∀ l ∈ c, l.var < a.length) :
    dpll (countNone a + 1) a f ≠ .fuelOut :=
  dpll_no_fuelOut (countNone a + 1) a f hlen (Or.inl (Nat.lt_succ_self _))

/-- C4 amended witness: a concrete bounded instance runs to completion
within `countNone a + 1` fuel. -/
theorem c4_termination_amended_witness :
    dpll 3 [none, none] [[⟨0, true⟩, ⟨1, true⟩], [⟨0, false⟩]] ≠ .fuelOut :=
  c4_termination_amended [none, none] [[⟨0, true⟩, ⟨1, true⟩], [⟨0, false⟩]]
    (by decide) (by decide)

theorem unit_prop_fixpoint (a : Assignment) (f : Formula)
    (h : ∀ c ∈ f, c.length ≠ 1) : unit_prop a f = (a, f, false) := by
  unfold unit_prop
  rw [collectUnits_no_units h]
  rfl

theorem full_unit_prop_fixpoint (a : Assignment) (f : Formula)
    (h : ∀ c ∈ f, c.length ≠ 1) : full_unit_prop a f = (a, f) := by
  rw [full_unit_prop_eq, unit_prop_fixpoint a f h]
  rfl

theorem foldl_plStep_id (L : List Nat) (st : Assignment × Formula)
    (h : ∀ i ∈ L, is_pure (i % 65536) st.2 = none) :
    L.foldl (fun st j => plStep j st) st = st := by
  induction L with
  | nil => rfl
  | cons j rest ih =>
    simp only [List.foldl_cons]
    have hj : plStep j st = st := by
      unfold plStep
      rw [h j (List.mem_cons_self _ _)]
    rw [hj]
    exact ih fun i hi => h i (List.mem_cons_of_mem _ hi)

theorem set_append_len (l1 l2 : Assignment) (x v : Option Bool) :
    (l1 ++ x :: l2).set l1.length v = l1 ++ v :: l2 := by
  induction l1 with
  | nil => rfl
  | cons y ys ih => simpa [List.set] using ih

theorem firstNone_replicate_some (k : Nat) (b : Bool) (rest : Assignment) (x : Nat)
    (h : firstNone rest = some x) :
    firstNone (List.replicate k (some b) ++ rest) = some (x + k) := by
  induction k with
  | zero => simpa using h
  | succ k ih =>
    rw [List.replicate_succ, List.cons_append]
    simp only [firstNone]
    rw [ih]
    rfl

theorem rewClause_no_occ {id : Nat} {val : Bool} {c : List Literal}
    (h : ∀ l ∈ c, l.var ≠ id) : rewClause id val c = (some c, false) := by
  induction c with
  | nil => rfl
  | cons l rest ih =>
    have hl : l.var ≠ id := h l (List.mem_cons_self _ _)
    simp only [rewClause, if_neg hl]
    rw [ih fun l' hl' => h l' (List.mem_cons_of_mem _ hl')]
    rfl

theorem rewForm_no_occ {id : Nat} {val : Bool} {f : Formula}
    (h : ∀ c ∈ f, ∀ l ∈ c, l.var ≠ id) : rewForm id val f = (f, false) := by
  induction f with
  | nil => rfl
  | cons c rest ih =>
    simp only [rewForm]
    rw [rewClause_no_occ (h c (List.mem_cons_self _ _)),
        ih fun c' hc' => h c' (List.mem_cons_of_mem _ hc')]
    rfl

theorem badA_set0 : badA.set 0 (some true) = badA := by
  show (List.replicate 65536 (some true) ++ [none]).set 0 (some true) = _
  rw [show (65536 : Nat) = 65535 + 1 from rfl, List.replicate_succ, List.cons_append]
  rfl

theorem badF_no_units : ∀ c ∈ badF, c.length ≠ 1 := by decide

theorem badF_vars : ∀ c ∈ badF, ∀ l ∈ c, l.var = 1 ∨ l.var = 2 := by decide

theorem badF_no_pure : ∀ v : Nat, is_pure v badF = none := by
  intro v
  by_cases h1 : v = 1
  · subst h1; decide
  by_cases h2 : v = 2
  · subst h2; decide
  apply is_pure_no_occ
  intro c hc l hl
  rcases badF_vars c hc l hl with h | h
  · rw [h]; exact fun he => h1 he.symm
  · rw [h]; exact fun he => h2 he.symm

theorem badA_firstNone : firstNone badA = some 65536 := by
  show firstNone (List.replicate 65536 (some true) ++ [none]) = some 65536
  rw [firstNone_replicate_some 65536 true [none] 0 rfl]

theorem badA_collect : collectUnits badA (badF ++ [[⟨0, true⟩]]) = (badA, [(0, true)]) := by
  show collectUnits badA
    ([⟨1, true⟩, ⟨2, true⟩] :: [⟨1, false⟩, ⟨2, false⟩] :: [[⟨0, true⟩]]) = _
  simp only [collectUnits]
  rw [badA_set0]

theorem badA_unit_prop : unit_prop badA (badF ++ [[⟨0, true⟩]]) = (badA, badF, true) := by
  unfold unit_prop
  rw [badA_collect]
  simp only [List.isEmpty_cons, Bool.false_eq_true, if_false]
  rw [show rewAll [(0, true)] (badF ++ [[⟨0, true⟩]]) false = (badF, true) from by decide]

theorem badA_fup : full_unit_prop badA (badF ++ [[⟨0, true⟩]]) = (badA, badF) := by
  rw [full_unit_prop_eq, badA_unit_prop]
  simp only [if_true]
  exact full_unit_prop_fixpoint badA badF badF_no_units

theorem badA_ple : pure_lit_elim badA badF = (badA, badF) := by
  unfold pure_lit_elim
  exact foldl_plStep_id _ _ fun i _ => badF_no_pure _

theorem dpll_succ_simp (fuel : Nat) (a : Assignment) (f : Formula)
    (a1 : Assignment) (f1 : Formula)
    (h : pure_lit_elim (full_unit_prop a f).1 (full_unit_prop a f).2 = (a1, f1)) :
    dpll (fuel + 1) a f =
      (if f1.isEmpty then .ok true a1 f1
       else if f1.any List.isEmpty then .ok false a1 f1
       else match firstNone a1 with
         | none => .crash
         | some x =>
           match dpll fuel a1 (f1 ++ [[⟨x % 65536, true⟩]]) with
           | .fuelOut => .fuelOut
           | .crash => .crash
           | .ok true a2 f2 => .ok true a2 f2
           | .ok false a2 f2 =>
             match f2.getLast? with
             | none => .crash
             | some [] => .crash
             | some (l :: ls) => dpll fuel a2 (f2.dropLast ++ [⟨l.var, false⟩ :: ls])) := by
  conv_lhs => rw [dpll]
  rw [h]

theorem dpll_succ_sat (fuel : Nat) (a : Assignment) (f : Formula)
    (a1 : Assignment) (f1 : Formula)
    (h : pure_lit_elim (full_unit_prop a f).1 (full_unit_prop a f).2 = (a1, f1))
    (h1 : f1.isEmpty = true) :
    dpll (fuel + 1) a f = .ok true a1 f1 := by
  rw [dpll_succ_simp fuel a f a1 f1 h, h1]
  rfl

theorem dpll_succ_branch_sat (fuel : Nat) (a : Assignment) (f : Formula)
    (a1 : Assignment) (f1 : Formula) (x : Nat) (a2 : Assignment) (f2 : Formula)
    (h : pure_lit_elim (full_unit_prop a f).1 (full_unit_prop a f).2 = (a1, f1))
    (h1 : f1.isEmpty = false) (h2 : f1.any List.isEmpty = false)
    (hx : firstNone a1 = some x)
    (hrec : dpll fuel a1 (f1 ++ [[⟨x % 65536, true⟩]]) = .ok true a2 f2) :
    dpll (fuel + 1) a f = .ok true a2 f2 := by
  rw [dpll_succ_simp fuel a f a1 f1 h, h1, h2, hx]
  show (match dpll fuel a1 (f1 ++ [[⟨x % 65536, true⟩]]) with
        | .fuelOut => .fuelOut
        | .crash => .crash
        | .ok true a2 f2 => .ok true a2 f2
        | .ok false a2 f2 =>
          match f2.getLast? with
          | none => .crash
          | some [] => .crash
          | some (l :: ls) => dpll fuel a2 (f2.dropLast ++ [⟨l.var, false⟩ :: ls]))
      = DRes.ok true a2 f2
  rw [hrec]

theorem dpll_succ_branch_fuelOut (fuel : Nat) (a : Assignment) (f : Formula)
    (a1 : Assignment) (f1 : Formula) (x : Nat)
    (h : pure_lit_elim (full_unit_prop a f).1 (full_unit_prop a f).2 = (a1, f1))
    (h1 : f1.isEmpty = false) (h2 : f1.any List.isEmpty = false)
    (hx : firstNone a1 = some x)
    (hrec : dpll fuel a1 (f1 ++ [[⟨x % 65536, true⟩]]) = .fuelOut) :
    dpll (fuel + 1) a f = .fuelOut := by
  rw [dpll_succ_simp fuel a f a1 f1 h, h1, h2, hx]
  show (match dpll fuel a1 (f1 ++ [[⟨x % 65536, true⟩]]) with
        | .fuelOut => .fuelOut
        | .crash => .crash
        | .ok true a2 f2 => .ok true a2 f2
        | .ok false a2 f2 =>
          match f2.getLast? with
          | none => .crash
          | some [] => .crash
          | some (l :: ls) => dpll fuel a2 (f2.dropLast ++ [⟨l.var, false⟩ :: ls]))
      = DRes.fuelOut
  rw [hrec]

theorem badA_simp_pair :
    pure_lit_elim (full_unit_prop badA (badF ++ [[⟨0, true⟩]])).1
      (full_unit_prop badA (badF ++ [[⟨0, true⟩]])).2 = (badA, badF) := by
  rw [badA_fup]
  exact badA_ple

theorem badA_simp_pair_top :
    pure_lit_elim (full_unit_prop badA badF).1 (full_unit_prop badA badF).2
      = (badA, badF) := by
  rw [full_unit_prop_fixpoint badA badF badF_no_units]
  exact badA_ple

theorem c4_loop_child : ∀ g : Nat, dpll g badA (badF ++ [[⟨0, true⟩]]) = .fuelOut := by
  intro g
  induction g with
  | zero => rfl
  | succ g ih =>
    refine dpll_succ_branch_fuelOut g badA _ badA badF 65536 badA_simp_pair rfl rfl
      badA_firstNone ?_
    rw [show (65536 % 65536 : Nat) = 0 from rfl]
    exact ih

theorem c4_loop_top : ∀ fuel : Nat, dpll fuel badA badF = .fuelOut := by
  intro fuel
  cases fuel with
  | zero => rfl
  | succ fuel =>
    refine dpll_succ_branch_fuelOut fuel badA badF badA badF 65536 badA_simp_pair_top
      rfl rfl badA_firstNone ?_
    rw [show (65536 % 65536 : Nat) = 0 from rfl]
    exact c4_loop_child fuel

theorem badA_length : badA.length = 65537 := by
  show (List.replicate 65536 (some true) ++ [none]).length = 65537
  rw [List.length_append, List.length_replicate]
  rfl

/-- C4 counterexample: the claim quantifies over every assignment array
whose size bounds all variable identifiers of the formula.  With the
65537-slot array whose first 65536 slots are assigned and the two clauses
`{1T,2T},{1F,2F}` (all identifiers bounded), the branch step picks the
unassigned slot 65536, truncates it to `0` as `u16`, and pushes the unit
clause `{(0,true)}`; propagating it rewrites slot 0 (already assigned) and
restores the formula exactly, so the recursion repeats the same state
forever: no amount of fuel makes `dpll` return. -/
theorem c4_nontermination :
    badA.length = 65537 ∧
    (∀ c ∈ badF, ∀ l ∈ c, l.var < badA.length) ∧
    ¬ ∃ fuel : Nat, dpll fuel badA badF ≠ DRes.fuelOut := by
  refine ⟨badA_length, ?_, ?_⟩
  · intro c hc l hl
    rcases badF_vars c hc l hl with h | h <;> rw [h, badA_length] <;> omega
  · rintro ⟨fuel, hne⟩
    exact hne (c4_loop_top fuel)

theorem setFalseRange_cons : ∀ (k : Nat) (x : Option Bool) (l : Assignment) (s : Nat),
    setFalseRange (x :: l) (s + 1) k = x :: setFalseRange l s k := by
  intro k
  induction k with
  | zero => intro x l s; rfl
  | succ k ih =>
    intro x l s
    show setFalseRange ((x :: l).set (s + 1) (some false)) (s + 2) k = _
    rw [show (x :: l).set (s + 1) (some false) = x :: l.set s (some false) from rfl]
    rw [ih x (l.set s (some false)) (s + 1)]
    rfl

theorem setFalseRange_replicate : ∀ (k : Nat) (rest : Assignment),
    setFalseRange (List.replicate k none ++ rest) 0 k
      = List.replicate k (some false) ++ rest := by
  intro k
  induction k with
  | zero => intro rest; rfl
  | succ k ih =>
    intro rest
    rw [List.replicate_succ, List.cons_append]
    show setFalseRange ((none :: (List.replicate k none ++ rest)).set 0 (some false)) 1 k = _
    rw [show (none :: (List.replicate k none ++ rest)).set 0 (some false)
        = some false :: (List.replicate k none ++ rest) from rfl]
    rw [show (1 : Nat) = 0 + 1 from rfl, setFalseRange_cons k (some false) _ 0, ih rest]
    rw [List.replicate_succ, List.cons_append]

theorem collectUnits_block : ∀ (k s : Nat) (a : Assignment) (tail : Formula),
    (∀ c ∈ tail, c.length ≠ 1) →
    collectUnits a (((List.range' s k).map fun i => [⟨i, false⟩]) ++ tail)
      = (setFalseRange a s k, (List.range' s k).map fun i => (i, false)) := by
  intro k
  induction k with
  | zero =>
    intro s a tail htail
    simp only [List.range'_zero, List.map_nil, List.nil_append]
    exact collectUnits_no_units htail
  | succ k ih =>
    intro s a tail htail
    rw [List.range'_succ, List.map_cons, List.map_cons, List.cons_append]
    simp only [collectUnits]
    rw [ih (s + 1) (a.set s (some false)) tail htail]
    rfl

theorem rewForm_append (id : Nat) (val : Bool) (xs ys : Formula) :
    rewForm id val (xs ++ ys) =
      ((rewForm id val xs).1 ++ (rewForm id val ys).1,
       (rewForm id val xs).2 || (rewForm id val ys).2) := by
  induction xs with
  | nil => simp [rewForm]
  | cons c rest ih =>
    rw [List.cons_append]
    simp only [rewForm, ih]
    cases hc : (rewClause id val c).1 with
    | none => simp
    | some c' => simp [Bool.or_assoc]

theorem block_no_occ (s k id : Nat) (hid : id < s) :
    ∀ c ∈ (List.range' s k).map fun i => [(⟨i, false⟩ : Literal)],
      ∀ l ∈ c, l.var ≠ id := by
  intro c hc l hl
  obtain ⟨i, hi, rfl⟩ := List.mem_map.mp hc
  have hi' := (List.mem_range'_1).mp hi
  have : l = ⟨i, false⟩ := by simpa using hl
  subst this
  show i ≠ id
  omega

theorem rewAll_block : ∀ (k s : Nat), s + k ≤ 65535 →
    rewAll ((List.range' s k).map fun i => (i, false))
      (((List.range' s k).map fun i => [⟨i, false⟩])
        ++ [[⟨65535, true⟩, ⟨65535, true⟩]]) true
      = ([[⟨65535, true⟩, ⟨65535, true⟩]], true) := by
  intro k
  induction k with
  | zero => intro s hs; rfl
  | succ k ih =>
    intro s hs
    rw [List.range'_succ, List.map_cons, List.map_cons, List.cons_append]
    show rewAll ((s, false) :: _) _ true = _
    simp only [rewAll]
    have hform : rewForm s false
        ([⟨s, false⟩] :: (((List.range' (s + 1) k).map fun i => [⟨i, false⟩])
          ++ [[⟨65535, true⟩, ⟨65535, true⟩]])) =
        (((List.range' (s + 1) k).map fun i => [⟨i, false⟩])
          ++ [[⟨65535, true⟩, ⟨65535, true⟩]], true) := by
      simp only [rewForm]
      rw [show rewClause s false [⟨s, false⟩] = (none, true) by simp [rewClause]]
      have hrest : rewForm s false
          (((List.range' (s + 1) k).map fun i => [⟨i, false⟩])
            ++ [[⟨65535, true⟩, ⟨65535, true⟩]]) =
          (((List.range' (s + 1) k).map fun i => [⟨i, false⟩])
            ++ [[⟨65535, true⟩, ⟨65535, true⟩]], false) := by
        apply rewForm_no_occ
        intro c hc l hl
        rcases List.mem_append.mp hc with hc1 | hc2
        · exact block_no_occ (s + 1) k s (by omega) c hc1 l hl
        · have hcB : c = [⟨65535, true⟩, ⟨65535, true⟩] := by simpa using hc2
          subst hcB
          have : l = (⟨65535, true⟩ : Literal) := by
            rcases List.mem_cons.mp hl with h | h
            · exact h
            · simpa using h
          subst this
          show (65535 : Nat) ≠ s
          omega
      rw [hrest]
    rw [hform]
    exact ih (s + 1) (by omega)

theorem bigA0_split :
    bigA0 = List.replicate 65535 (none : Option Bool) ++ [none, none] := by
  have h : List.replicate 65535 (none : Option Bool) ++ List.replicate 2 none
      = List.replicate (65535 + 2) (none : Option Bool) :=
    List.append_replicate_replicate
  rw [show [none, none] = List.replicate 2 (none : Option Bool) from rfl]
  rw [h, show (65535 + 2 : Nat) = 65537 from rfl]
  rfl

theorem range_pairs_cons :
    (List.range' 0 65535).map (fun i => ((i, false) : Nat × Bool))
      = (0, false) :: (List.range' 1 65534).map (fun i => (i, false)) := by
  rw [show (65535 : Nat) = 65534 + 1 from rfl, List.range'_succ, List.map_cons]

theorem range_units_cons :
    (List.range' 0 65535).map (fun i => [(⟨i, false⟩ : Literal)])
      = [⟨0, false⟩] :: (List.range' 1 65534).map (fun i => [⟨i, false⟩]) := by
  rw [show (65535 : Nat) = 65534 + 1 from rfl, List.range'_succ, List.map_cons]

theorem big_collect :
    collectUnits bigA0 bigF = (bigAP, (List.range' 0 65535).map fun i => (i, false)) := by
  unfold bigF
  refine Eq.trans (collectUnits_block 65535 0 bigA0 _ (by decide)) ?_
  rw [bigA0_split, setFalseRange_replicate 65535 [none, none]]
  rfl

theorem rewAll_cons (id : Nat) (val : Bool) (us : List (Nat × Bool)) (f : Formula)
    (ch : Bool) :
    rewAll ((id, val) :: us) f ch
      = rewAll us (rewForm id val f).1 (ch || (rewForm id val f).2) := rfl

theorem rewForm_zero_step (k : Nat) :
    rewForm 0 false (([⟨0, false⟩] :: ((List.range' 1 k).map fun i => [⟨i, false⟩]))
      ++ [[⟨0, false⟩, ⟨1, true⟩], [⟨65535, true⟩, ⟨65535, true⟩]])
    = (((List.range' 1 k).map fun i => [⟨i, false⟩])
        ++ [[⟨65535, true⟩, ⟨65535, true⟩]], true) := by
  rw [List.cons_append]
  simp only [rewForm]
  rw [show rewClause 0 false [⟨0, false⟩] = (none, true) from by decide]
  rw [rewForm_append]
  rw [rewForm_no_occ (block_no_occ 1 k 0 (by omega))]
  rw [show rewForm 0 false [[⟨0, false⟩, ⟨1, true⟩], [⟨65535, true⟩, ⟨65535, true⟩]]
    = ([[⟨65535, true⟩, ⟨65535, true⟩]], true) from by decide]

theorem big_rewAll :
    rewAll ((List.range' 0 65535).map fun i => (i, false)) bigF false
      = ([[⟨65535, true⟩, ⟨65535, true⟩]], true) := by
  unfold bigF
  rw [range_pairs_cons, range_units_cons, List.cons_append, rewAll_cons]
  rw [show ([⟨0, false⟩] :: (((List.range' 1 65534).map fun i => [(⟨i, false⟩ : Literal)])
      ++ [[⟨0, false⟩, ⟨1, true⟩], [⟨65535, true⟩, ⟨65535, true⟩]]))
    = (([⟨0, false⟩] :: ((List.range' 1 65534).map fun i => [(⟨i, false⟩ : Literal)]))
      ++ [[⟨0, false⟩, ⟨1, true⟩], [⟨65535, true⟩, ⟨65535, true⟩]]) from rfl]
  rw [rewForm_zero_step 65534]
  exact rewAll_block 65534 1 (by omega)

theorem unit_prop_build (a : Assignment) (f : Formula) (a1 : Assignment)
    (us : List (Nat × Bool)) (f1 : Formula) (ch : Bool)
    (h : collectUnits a f = (a1, us)) (hne : us.isEmpty = false)
    (hrw : rewAll us f false = (f1, ch)) :
    unit_prop a f = (a1, f1, ch) := by
  unfold unit_prop
  rw [h]
  simp only [hne, Bool.false_eq_true, if_false, hrw]

theorem full_unit_prop_step (a : Assignment) (f : Formula) (a1 : Assignment)
    (f1 : Formula) (h : unit_prop a f = (a1, f1, true)) :
    full_unit_prop a f = full_unit_prop a1 f1 := by
  rw [full_unit_prop_eq, h]
  rfl

theorem big_unit_prop :
    unit_prop bigA0 bigF = (bigAP, [[⟨65535, true⟩, ⟨65535, true⟩]], true) :=
  unit_prop_build _ _ _ _ _ _ big_collect
    (by rw [range_pairs_cons]; rfl) big_rewAll

theorem big_fup :
    full_unit_prop bigA0 bigF = (bigAP, [[⟨65535, true⟩, ⟨65535, true⟩]]) :=
  (full_unit_prop_step _ _ _ _ big_unit_prop).trans
    (full_unit_prop_fixpoint bigAP _ (by decide))

theorem bigAP_length : bigAP.length = 65537 := by
  unfold bigAP
  rw [List.length_append, List.length_replicate]
  rfl

theorem range_65537 :
    List.range 65537 = (List.range 65535 ++ [65535]) ++ [65536] := by
  rw [show (65537 : Nat) = 65536 + 1 from rfl, List.range_succ,
    show (65536 : Nat) = 65535 + 1 from rfl, List.range_succ]

theorem set_append_at (l1 l2 : Assignment) (x v : Option Bool) (n : Nat)
    (h : n = l1.length) : (l1 ++ x :: l2).set n v = l1 ++ v :: l2 := by
  subst h
  exact set_append_len l1 l2 x v

theorem bigAP_set : bigAP.set 65535 (some true) = bigAQ := by
  unfold bigAP bigAQ
  exact set_append_at _ _ _ _ _ (List.length_replicate _ _).symm

theorem big_seg1 :
    (List.range 65535).foldl (fun st j => plStep j st)
      (bigAP, [[⟨65535, true⟩, ⟨65535, true⟩]])
      = (bigAP, [[⟨65535, true⟩, ⟨65535, true⟩]]) := by
  apply foldl_plStep_id
  intro i hi
  have hi' : i < 65535 := List.mem_range.mp hi
  rw [Nat.mod_eq_of_lt (by omega)]
  apply is_pure_no_occ
  intro c hc l hl
  have hv : ∀ c ∈ [[(⟨65535, true⟩ : Literal), ⟨65535, true⟩]], ∀ l ∈ c,
      l.var = 65535 := by decide
  rw [hv c hc l hl]
  omega

theorem plStep_some (i : Nat) (st : Assignment × Formula) (b : Bool)
    (h : is_pure (i % 65536) st.2 = some b) :
    plStep i st = (st.1.set i (some b),
      (st.2.filter fun c => ! c.any fun l => l.var == i % 65536 && l.pol == b)
        ++ [[⟨i % 65536, b⟩]]) := by
  unfold plStep
  rw [h]

theorem plStep_none (i : Nat) (st : Assignment × Formula)
    (h : is_pure (i % 65536) st.2 = none) : plStep i st = st := by
  unfold plStep
  rw [h]

theorem foldl_plStep_single (j : Nat) (st : Assignment × Formula) :
    List.foldl (fun st j => plStep j st) st [j] = plStep j st := rfl

theorem big_step65535 :
    plStep 65535 (bigAP, [[⟨65535, true⟩, ⟨65535, true⟩]])
      = (bigAQ, [[⟨65535, true⟩]]) := by
  rw [plStep_some 65535 _ true (by decide)]
  rw [show (65535 % 65536 : Nat) = 65535 from rfl]
  rw [show List.filter
      (fun c => ! c.any fun l => l.var == 65535 && l.pol == true)
      ((bigAP, [[(⟨65535, true⟩ : Literal), ⟨65535, true⟩]]).2) = [] from by decide]
  rw [show ((bigAP, [[(⟨65535, true⟩ : Literal), ⟨65535, true⟩]]).1) = bigAP from rfl]
  rw [bigAP_set]
  rfl

theorem big_step65536 :
    plStep 65536 (bigAQ, [[⟨65535, true⟩]]) = (bigAQ, [[⟨65535, true⟩]]) :=
  plStep_none 65536 _ (by decide)

theorem big_ple :
    pure_lit_elim bigAP [[⟨65535, true⟩, ⟨65535, true⟩]]
      = (bigAQ, [[⟨65535, true⟩]]) := by
  unfold pure_lit_elim
  rw [bigAP_length, range_65537, List.foldl_append, List.foldl_append, big_seg1]
  rw [foldl_plStep_single 65535, big_step65535, foldl_plStep_single 65536,
    big_step65536]

theorem big_firstNone : firstNone bigAQ = some 65536 := by
  unfold bigAQ
  rw [firstNone_replicate_some 65535 false [some true, none] 1 rfl]

theorem bigAQ_set_65535 : bigAQ.set 65535 (some true) = bigAQ := by
  unfold bigAQ
  exact set_append_at _ _ _ _ _ (List.length_replicate _ _).symm

theorem bigAQ_set_0 : bigAQ.set 0 (some true) = bigAF := by
  unfold bigAQ bigAF
  rw [show List.replicate 65535 (some false : Option Bool)
      = some false :: List.replicate 65534 (some false) from rfl]
  rw [List.cons_append]
  rfl

theorem child_collect :
    collectUnits bigAQ [[⟨65535, true⟩], [⟨0, true⟩]]
      = (bigAF, [(65535, true), (0, true)]) := by
  simp only [collectUnits]
  rw [bigAQ_set_65535, bigAQ_set_0]

theorem child_unit_prop :
    unit_prop bigAQ [[⟨65535, true⟩], [⟨0, true⟩]] = (bigAF, [], true) :=
  unit_prop_build _ _ _ _ _ _ child_collect rfl (by decide)

theorem child_fup :
    full_unit_prop bigAQ [[⟨65535, true⟩], [⟨0, true⟩]] = (bigAF, []) :=
  (full_unit_prop_step _ _ _ _ child_unit_prop).trans
    (full_unit_prop_fixpoint bigAF [] (fun c hc => absurd hc (List.not_mem_nil c)))

theorem child_ple : pure_lit_elim bigAF [] = (bigAF, []) := by
  unfold pure_lit_elim
  exact foldl_plStep_id _ _ (fun i _ => rfl)

theorem child_pair :
    pure_lit_elim (full_unit_prop bigAQ [[⟨65535, true⟩], [⟨0, true⟩]]).1
      (full_unit_prop bigAQ [[⟨65535, true⟩], [⟨0, true⟩]]).2 = (bigAF, []) := by
  rw [child_fup]
  exact child_ple

theorem child_run :
    dpll 1 bigAQ ([[⟨65535, true⟩]] ++ [[⟨65536 % 65536, true⟩]])
      = .ok true bigAF [] := by
  rw [show (65536 % 65536 : Nat) = 0 from rfl]
  exact dpll_succ_sat 0 bigAQ _ bigAF [] child_pair rfl

theorem big_pair :
    pure_lit_elim (full_unit_prop bigA0 bigF).1 (full_unit_prop bigA0 bigF).2
      = (bigAQ, [[⟨65535, true⟩]]) := by
  rw [big_fup]
  exact big_ple

theorem big_run : dpll 2 bigA0 bigF = .ok true bigAF [] :=
  dpll_succ_branch_sat 1 bigA0 bigF bigAQ [[⟨65535, true⟩]] 65536 bigAF []
    big_pair rfl rfl big_firstNone child_run

/-- C1 counterexample run: the claim asserts that when `dpll` returns true
on an initially all-unassigned array, the final assignment makes a literal
true in every original clause.  On the 65537-variable input `bigF` (65535
unit clauses `{(i,false)}`, the clause `{0F,1T}`, and `{65535T,65535T}`)
the code returns `true`, yet the final assignment falsifies the original
clause `{0F,1T}`: propagation assigns variables 0..65534 to false
(satisfying `{0F,1T}` at deletion time), pure-literal elimination assigns
65535, and the branch step then picks unassigned slot 65536, truncates it
to `0 as u16` and pushes `{(0,true)}`, overwriting variable 0 to true —
after which the formula is empty and `dpll` reports success. -/
theorem c1_soundness_failing_input :
    bigA0 = List.replicate 65537 none ∧
    (∀ c ∈ bigF, ∀ l ∈ c, l.var < 65537) ∧
    dpll 2 bigA0 bigF = .ok true bigAF [] ∧
    [⟨0, false⟩, ⟨1, true⟩] ∈ bigF ∧
    clauseSat bigAF [⟨0, false⟩, ⟨1, true⟩] = false := by
  refine ⟨rfl, ?_, big_run, ?_, ?_⟩
  · intro c hc l hl
    unfold bigF at hc
    rcases List.mem_append.mp hc with h1 | h2
    · obtain ⟨i, hi, rfl⟩ := List.mem_map.mp h1
      have hi' := List.mem_range'_1.mp hi
      have hli : l = (⟨i, false⟩ : Literal) := by simpa using hl
      subst hli
      show i < 65537
      omega
    · have hs : ∀ c ∈ [[(⟨0, false⟩ : Literal), ⟨1, true⟩],
          [⟨65535, true⟩, ⟨65535, true⟩]], ∀ l ∈ c, l.var < 65537 := by decide
      exact hs c h2 l hl
  · unfold bigF
    exact List.mem_append_right _ (List.mem_cons_self _ _)
  · rfl

theorem slot_some_lt {a : Assignment} {v : Nat} {b : Bool}
    (h : slot a v = some b) : v < a.length := by
  induction a generalizing v with
  | nil => simp [slot] at h
  | cons x xs ih =>
    cases v with
    | zero => simp
    | succ v' => simpa using ih h

theorem slot_set_keep {a : Assignment} {v : Nat} {b : Bool}
    (h : slot a v = some b) : slot (a.set v (some b)) v = some b := by
  rw [slot_set_self a v (some b) (slot_some_lt h)]

theorem rewClause_mem {id : Nat} {val : Bool} {c c' : List Literal}
    (h : (rewClause id val c).1 = some c') : ∀ l ∈ c', l ∈ c := by
  induction c generalizing c' with
  | nil =>
    simp [rewClause] at h
    simp [← h]
  | cons l rest ih =>
    simp only [rewClause] at h
    by_cases hv : l.var = id
    · simp only [hv, if_pos rfl] at h
      by_cases hp : l.pol = val
      · simp [hp] at h
      · simp only [hp, if_neg hp] at h
        intro l' hl'
        exact List.mem_cons_of_mem _ (ih h l' hl')
    · simp only [if_neg hv] at h
      cases hr : (rewClause id val rest).1 with
      | none => rw [hr] at h; simp at h
      | some c'' =>
        rw [hr] at h
        simp at h
        subst h
        intro l' hl'
        rcases List.mem_cons.mp hl' with h1 | h1
        · exact h1 ▸ List.mem_cons_self _ _
        · exact List.mem_cons_of_mem _ (ih hr l' h1)

theorem rewClause_none_just {id : Nat} {val : Bool} {c : List Literal}
    (h : (rewClause id val c).1 = none) : ∃ l ∈ c, l.var = id ∧ l.pol = val := by
  induction c with
  | nil => simp [rewClause] at h
  | cons l rest ih =>
    simp only [rewClause] at h
    by_cases hv : l.var = id
    · simp only [hv, if_pos rfl] at h
      by_cases hp : l.pol = val
      · exact ⟨l, List.mem_cons_self _ _, hv, hp⟩
      · simp only [hp, if_neg hp] at h
        obtain ⟨l', hl', h1, h2⟩ := ih h
        exact ⟨l', List.mem_cons_of_mem _ hl', h1, h2⟩
    · simp only [if_neg hv] at h
      cases hr : (rewClause id val rest).1 with
      | none =>
        obtain ⟨l', hl', h1, h2⟩ := ih hr
        exact ⟨l', List.mem_cons_of_mem _ hl', h1, h2⟩
      | some c'' => rw [hr] at h; simp at h

theorem rewClause_no_var {v : Nat} {val : Bool} {c c' : List Literal}
    (h : (rewClause v val c).1 = some c') : ∀ l ∈ c', l.var ≠ v := by
  induction c generalizing c' with
  | nil =>
    simp [rewClause] at h
    subst h
    simp
  | cons l rest ih =>
    simp only [rewClause] at h
    by_cases hv : l.var = v
    · simp only [hv, if_pos rfl] at h
      by_cases hp : l.pol = val
      · simp [hp] at h
      · simp only [hp, if_neg hp] at h
        exact ih h
    · simp only [if_neg hv] at h
      cases hr : (rewClause v val rest).1 with
      | none => rw [hr] at h; simp at h
      | some c'' =>
        rw [hr] at h
        simp at h
        subst h
        intro l' hl'
        rcases List.mem_cons.mp hl' with h1 | h1
        · exact h1 ▸ hv
        · exact ih hr l' h1

theorem rewForm_mem {id : Nat} {val : Bool} {f : Formula} {c' : List Literal}
    (h : c' ∈ (rewForm id val f).1) : ∃ c ∈ f, (rewClause id val c).1 = some c' := by
  induction f with
  | nil => simp [rewForm] at h
  | cons c rest ih =>
    simp only [rewForm] at h
    cases hc : (rewClause id val c).1 with
    | none =>
      rw [hc] at h
      obtain ⟨d, hd, he⟩ := ih h
      exact ⟨d, List.mem_cons_of_mem _ hd, he⟩
    | some c'' =>
      rw [hc] at h
      rcases List.mem_cons.mp h with h1 | h1
      · exact ⟨c, List.mem_cons_self _ _, h1 ▸ hc⟩
      · obtain ⟨d, hd, he⟩ := ih h1
        exact ⟨d, List.mem_cons_of_mem _ hd, he⟩

theorem rewForm_keeps_empty {id : Nat} {val : Bool} {f : Formula}
    (h : [] ∈ f) : [] ∈ (rewForm id val f).1 := by
  induction f with
  | nil => simp at h
  | cons c rest ih =>
    simp only [rewForm]
    rcases List.mem_cons.mp h with h1 | h1
    · subst h1
      rw [show (rewClause id val []).1 = some [] from rfl]
      exact List.mem_cons_self _ _
    · cases hc : (rewClause id val c).1 with
      | none => exact ih h1
      | some c'' => exact List.mem_cons_of_mem _ (ih h1)

theorem rewForm_sat_back {id : Nat} {val : Bool} {f : Formula} {aF : Assignment}
    (hid : slot aF id = some val)
    (h : ∀ c' ∈ (rewForm id val f).1, clauseSat aF c' = true) :
    ∀ c ∈ f, clauseSat aF c = true := by
  induction f with
  | nil => simp
  | cons c rest ih =>
    simp only [rewForm] at h
    intro d hd
    rcases List.mem_cons.mp hd with h1 | h1
    · subst h1
      cases hc : (rewClause id val d).1 with
      | none =>
        obtain ⟨l, hl, h2, h3⟩ := rewClause_none_just hc
        apply List.any_eq_true.mpr
        refine ⟨l, hl, ?_⟩
        unfold litTrue
        rw [h2, h3, hid]
        simp
      | some c'' =>
        rw [hc] at h
        have hcs := h c'' (List.mem_cons_self _ _)
        obtain ⟨l, hl, hlt⟩ := List.any_eq_true.mp hcs
        exact List.any_eq_true.mpr ⟨l, rewClause_mem hc l hl, hlt⟩
    · cases hc : (rewClause id val c).1 with
      | none =>
        rw [hc] at h
        exact ih h d h1
      | some c'' =>
        rw [hc] at h
        exact ih (fun e he => h e (List.mem_cons_of_mem _ he)) d h1

theorem rewForm_singleton_pres {id v : Nat} {val p : Bool} {f : Formula}
    (hne : v ≠ id) (h : [⟨v, p⟩] ∈ f) : [⟨v, p⟩] ∈ (rewForm id val f).1 := by
  induction f with
  | nil => simp at h
  | cons c rest ih =>
    simp only [rewForm]
    rcases List.mem_cons.mp h with h1 | h1
    · subst h1
      rw [show (rewClause id val [(⟨v, p⟩ : Literal)]).1 = some [⟨v, p⟩] from by
        simp [rewClause, hne]]
      exact List.mem_cons_self _ _
    · cases hc : (rewClause id val c).1 with
      | none => exact ih h1
      | some c'' => exact List.mem_cons_of_mem _ (ih h1)

theorem rewForm_conflict {v : Nat} {val p : Bool} {f : Formula}
    (h : [⟨v, p⟩] ∈ f) (hp : p ≠ val) : [] ∈ (rewForm v val f).1 := by
  induction f with
  | nil => simp at h
  | cons c rest ih =>
    simp only [rewForm]
    rcases List.mem_cons.mp h with h1 | h1
    · subst h1
      rw [show (rewClause v val [(⟨v, p⟩ : Literal)]).1 = some [] from by
        simp [rewClause, hp]]
      exact List.mem_cons_self _ _
    · cases hc : (rewClause v val c).1 with
      | none => exact ih h1
      | some c'' => exact List.mem_cons_of_mem _ (ih h1)

theorem rewForm_lit_pres {id : Nat} {val : Bool} {f : Formula}
    (P : Literal → Prop) (h : ∀ c ∈ f, ∀ l ∈ c, P l) :
    ∀ c' ∈ (rewForm id val f).1, ∀ l ∈ c', P l := by
  intro c' hc' l hl
  obtain ⟨c, hc, he⟩ := rewForm_mem hc'
  exact h c hc l (rewClause_mem he l hl)

theorem rewForm_novar_out {v : Nat} {val : Bool} {f : Formula} :
    ∀ c' ∈ (rewForm v val f).1, ∀ l ∈ c', l.var ≠ v := by
  intro c' hc' l hl
  obtain ⟨c, hc, he⟩ := rewForm_mem hc'
  exact rewClause_no_var he l hl

theorem rewAll_keeps_empty {us : List (Nat × Bool)} {f : Formula} {ch : Bool}
    (h : [] ∈ f) : [] ∈ (rewAll us f ch).1 := by
  induction us generalizing f ch with
  | nil => exact h
  | cons u us ih =>
    obtain ⟨id, val⟩ := u
    simp only [rewAll]
    exact ih (rewForm_keeps_empty h)

theorem rewAll_conflict {us : List (Nat × Bool)} {f : Formula} {ch : Bool}
    {v : Nat} {b b' : Bool} (hu : (v, b) ∈ us) (h1 : [⟨v, b⟩] ∈ f)
    (h2 : [⟨v, b'⟩] ∈ f) (hne : b ≠ b') : [] ∈ (rewAll us f ch).1 := by
  induction us generalizing f ch with
  | nil => simp at hu
  | cons u us ih =>
    obtain ⟨id, val⟩ := u
    simp only [rewAll]
    by_cases hv : id = v
    · subst hv
      by_cases hval : b' = val
      · exact rewAll_keeps_empty (rewForm_conflict h1 (hval ▸ hne))
      · exact rewAll_keeps_empty (rewForm_conflict h2 hval)
    · have hu' : (v, b) ∈ us := by
        rcases List.mem_cons.mp hu with h | h
        · exact absurd (congrArg Prod.fst h).symm hv
        · exact h
      exact ih hu' (rewForm_singleton_pres (fun he => hv he.symm) h1)
        (rewForm_singleton_pres (fun he => hv he.symm) h2)

theorem rewAll_lit_pres {us : List (Nat × Bool)} {f : Formula} {ch : Bool}
    (P : Literal → Prop) (h : ∀ c ∈ f, ∀ l ∈ c, P l) :
    ∀ c' ∈ (rewAll us f ch).1, ∀ l ∈ c', P l := by
  induction us generalizing f ch with
  | nil => exact h
  | cons u us ih =>
    obtain ⟨id, val⟩ := u
    simp only [rewAll]
    exact ih (rewForm_lit_pres P h)

theorem rewAll_novar {us : List (Nat × Bool)} {f : Formula} {ch : Bool}
    {v : Nat} {val : Bool} (hu : (v, val) ∈ us) :
    ∀ c' ∈ (rewAll us f ch).1, ∀ l ∈ c', l.var ≠ v := by
  induction us generalizing f ch with
  | nil => simp at hu
  | cons u us ih =>
    obtain ⟨id, val'⟩ := u
    simp only [rewAll]
    by_cases hv : id = v
    · subst hv
      exact rewAll_lit_pres _ (rewForm_novar_out)
    · have hu' : (v, val) ∈ us := by
        rcases List.mem_cons.mp hu with h | h
        · exact absurd (congrArg Prod.fst h).symm hv
        · exact h
      exact ih hu'

theorem rewAll_sat_back {us : List (Nat × Bool)} {f : Formula} {ch : Bool}
    {aF : Assignment} (hus : ∀ p ∈ us, slot aF p.1 = some p.2)
    (h : ∀ c' ∈ (rewAll us f ch).1, clauseSat aF c' = true) :
    ∀ c ∈ f, clauseSat aF c = true := by
  induction us generalizing f ch with
  | nil => exact h
  | cons u us ih =>
    obtain ⟨id, val⟩ := u
    simp only [rewAll] at h
    have hid : slot aF id = some val := hus (id, val) (List.mem_cons_self _ _)
    exact rewForm_sat_back hid
      (ih (fun p hp => hus p (List.mem_cons_of_mem _ hp)) h)

theorem cu_mem_iff {a : Assignment} {f : Formula} {v : Nat} {b : Bool} :
    (v, b) ∈ (collectUnits a f).2 ↔ [(⟨v, b⟩ : Literal)] ∈ f := by
  induction f generalizing a with
  | nil => simp [collectUnits]
  | cons c rest ih =>
    match c with
    | [] =>
      rw [show collectUnits a ([] :: rest) = collectUnits a rest from rfl]
      rw [ih]
      constructor
      · exact fun h => List.mem_cons_of_mem _ h
      · intro h
        rcases List.mem_cons.mp h with h1 | h1
        · exact absurd h1.symm (by simp)
        · exact h1
    | [l] =>
      simp only [collectUnits]
      constructor
      · intro h
        rcases List.mem_cons.mp h with h1 | h1
        · have hv : v = l.var := congrArg Prod.fst h1
          have hb : b = l.pol := congrArg Prod.snd h1
          rw [hv, hb]
          rw [show ({ var := l.var, pol := l.pol } : Literal) = l from by cases l; rfl]
          exact List.mem_cons_self _ _
        · exact List.mem_cons_of_mem _ (ih.mp h1)
      · intro h
        rcases List.mem_cons.mp h with h1 | h1
        · have : l = ⟨v, b⟩ := by
            have h2 : ({ var := v, pol := b } : Literal) = l := by simpa using h1
            exact h2.symm
          subst this
          exact List.mem_cons_self _ _
        · exact List.mem_cons_of_mem _ (ih.mpr h1)
    | l1 :: l2 :: ls =>
      rw [show collectUnits a ((l1 :: l2 :: ls) :: rest) = collectUnits a rest
        from rfl]
      rw [ih]
      constructor
      · exact fun h => List.mem_cons_of_mem _ h
      · intro h
        rcases List.mem_cons.mp h with h1 | h1
        · exact absurd h1.symm (by simp)
        · exact h1

theorem cu_slot_stable {a : Assignment} {f : Formula} {v : Nat} {b : Bool}
    (hcons : ∀ p : Bool, [(⟨v, p⟩ : Literal)] ∈ f → p = b)
    (h : slot a v = some b) : slot (collectUnits a f).1 v = some b := by
  induction f generalizing a with
  | nil => exact h
  | cons c rest ih =>
    match c with
    | [] => exact ih (fun p hp => hcons p (List.mem_cons_of_mem _ hp)) h
    | [l] =>
      simp only [collectUnits]
      apply ih (fun p hp => hcons p (List.mem_cons_of_mem _ hp))
      by_cases hv : l.var = v
      · have hp : l.pol = b := by
          apply hcons
          rw [show (⟨v, l.pol⟩ : Literal) = l from by
            cases l; simp at hv ⊢; exact hv.symm]
          exact List.mem_cons_self _ _
        rw [hv, hp]
        exact slot_set_keep h
      · rw [slot_set_ne a l.var v (some l.pol) hv]
        exact h
    | l1 :: l2 :: ls => exact ih (fun p hp => hcons p (List.mem_cons_of_mem _ hp)) h

theorem cu_slot_unit {a : Assignment} {f : Formula} {v : Nat} {b : Bool}
    (hcons : ∀ p : Bool, [(⟨v, p⟩ : Literal)] ∈ f → p = b)
    (hmem : [(⟨v, b⟩ : Literal)] ∈ f) (hlt : v < a.length) :
    slot (collectUnits a f).1 v = some b := by
  induction f generalizing a with
  | nil => simp at hmem
  | cons c rest ih =>
    match c with
    | [] =>
      apply ih (fun p hp => hcons p (List.mem_cons_of_mem _ hp))
      · rcases List.mem_cons.mp hmem with h1 | h1
        · exact absurd h1 (by simp)
        · exact h1
      · exact hlt
    | [l] =>
      simp only [collectUnits]
      rcases List.mem_cons.mp hmem with h1 | h1
      · have hl : l = ⟨v, b⟩ := by
          have h2 : ({ var := v, pol := b } : Literal) = l := by simpa using h1
          exact h2.symm
        subst hl
        apply cu_slot_stable (fun p hp => hcons p (List.mem_cons_of_mem _ hp))
        exact slot_set_self a v (some b) hlt
      · apply ih (fun p hp => hcons p (List.mem_cons_of_mem _ hp)) h1
        rw [List.length_set]
        exact hlt
    | l1 :: l2 :: ls =>
      apply ih (fun p hp => hcons p (List.mem_cons_of_mem _ hp))
      · rcases List.mem_cons.mp hmem with h1 | h1
        · exact absurd h1 (by simp)
        · exact h1
      · exact hlt

theorem cu_slot_origin {a : Assignment} {f : Formula} {v : Nat}
    (h : slot (collectUnits a f).1 v ≠ slot a v) :
    ∃ p : Bool, [(⟨v, p⟩ : Literal)] ∈ f := by
  induction f generalizing a with
  | nil => exact absurd rfl h
  | cons c rest ih =>
    match c with
    | [] =>
      obtain ⟨p, hp⟩ := ih h
      exact ⟨p, List.mem_cons_of_mem _ hp⟩
    | [l] =>
      by_cases hv : l.var = v
      · refine ⟨l.pol, ?_⟩
        rw [show (⟨v, l.pol⟩ : Literal) = l from by
          cases l; simp at hv ⊢; exact hv.symm]
        exact List.mem_cons_self _ _
      · simp only [collectUnits] at h
        have h' : slot (collectUnits (a.set l.var (some l.pol)) rest).1 v
            ≠ slot (a.set l.var (some l.pol)) v := by
          rw [slot_set_ne a l.var v (some l.pol) hv]
          exact h
        obtain ⟨p, hp⟩ := ih h'
        exact ⟨p, List.mem_cons_of_mem _ hp⟩
    | l1 :: l2 :: ls =>
      obtain ⟨p, hp⟩ := ih h
      exact ⟨p, List.mem_cons_of_mem _ hp⟩

theorem up_keeps_empty {a : Assignment} {f : Formula} (h : [] ∈ f) :
    [] ∈ (unit_prop a f).2.1 := by
  unfold unit_prop
  by_cases he : (collectUnits a f).2.isEmpty
  · simp only [he, if_true]
    exact h
  · simp only [he, Bool.false_eq_true, if_false]
    exact rewAll_keeps_empty h

theorem up_consistency {a : Assignment} {f : Formula}
    (hne : ¬ [] ∈ (unit_prop a f).2.1) :
    ∀ (v : Nat) (b b' : Bool), [(⟨v, b⟩ : Literal)] ∈ f →
      [(⟨v, b'⟩ : Literal)] ∈ f → b = b' := by
  intro v b b' h1 h2
  by_contra hbb
  apply hne
  unfold unit_prop
  have hu : (v, b) ∈ (collectUnits a f).2 := cu_mem_iff.mpr h1
  have hioe : (collectUnits a f).2.isEmpty = false := by
    cases hl : (collectUnits a f).2 with
    | nil => rw [hl] at hu; simp at hu
    | cons x xs => rfl
  simp only [hioe, Bool.false_eq_true, if_false]
  exact rewAll_conflict hu h1 h2 hbb

theorem up_slot_stable {a : Assignment} {f : Formula} {v : Nat} {b : Bool}
    (hagr : agrees a f) (h : slot a v = some b) :
    slot (unit_prop a f).1 v = some b := by
  rw [unit_prop_fst]
  apply cu_slot_stable _ h
  intro p hp
  exact hagr _ hp ⟨v, p⟩ (List.mem_cons_self _ _) b h

theorem up_slot_unit {a : Assignment} {f : Formula} {v : Nat} {b : Bool}
    (hne : ¬ [] ∈ (unit_prop a f).2.1)
    (hmem : [(⟨v, b⟩ : Literal)] ∈ f) (hlt : v < a.length) :
    slot (unit_prop a f).1 v = some b := by
  rw [unit_prop_fst]
  apply cu_slot_unit _ hmem hlt
  intro p hp
  exact up_consistency hne v p b hp hmem

theorem up_agrees_pres {a : Assignment} {f : Formula} (hagr : agrees a f) :
    agrees (unit_prop a f).1 (unit_prop a f).2.1 := by
  intro c' hc' l hl b hb
  cases hsl : slot a l.var with
  | some b0 =>
    have hb0 : slot (unit_prop a f).1 l.var = some b0 := up_slot_stable hagr hsl
    have hbb : b = b0 := by
      rw [hb] at hb0
      injection hb0
    subst hbb
    -- every literal in the output occurs in the input
    revert hc'
    unfold unit_prop
    by_cases he : (collectUnits a f).2.isEmpty
    · simp only [he, if_true]
      intro hc'
      exact hagr c' hc' l hl b hsl
    · simp only [he, Bool.false_eq_true, if_false]
      intro hc'
      exact rewAll_lit_pres (fun l => ∀ bb, slot a l.var = some bb → l.pol = bb)
        hagr c' hc' l hl b hsl
  | none =>
    have hchanged : slot (collectUnits a f).1 l.var ≠ slot a l.var := by
      rw [hsl, ← unit_prop_fst, hb]
      simp
    obtain ⟨p, hp⟩ := cu_slot_origin hchanged
    have hu : (l.var, p) ∈ (collectUnits a f).2 := cu_mem_iff.mpr hp
    revert hc'
    unfold unit_prop
    by_cases he : (collectUnits a f).2.isEmpty
    · rw [List.isEmpty_iff] at he
      rw [he] at hu
      simp at hu
    · simp only [he, Bool.false_eq_true, if_false]
      intro hc'
      exact absurd rfl (rewAll_novar hu c' hc' l hl)

theorem up_vars_pres {a : Assignment} {f : Formula} {n : Nat}
    (h : varsBelow n f) : varsBelow n (unit_prop a f).2.1 := by
  unfold unit_prop
  by_cases he : (collectUnits a f).2.isEmpty
  · simp only [he, if_true]
    exact h
  · simp only [he, Bool.false_eq_true, if_false]
    exact rewAll_lit_pres (fun l => l.var < n) h

theorem up_sat_back {a : Assignment} {f : Formula} {aF : Assignment}
    (hne : ¬ [] ∈ (unit_prop a f).2.1) (hU : varsBelow a.length f)
    (hext : extendsA (unit_prop a f).1 aF)
    (h : ∀ c' ∈ (unit_prop a f).2.1, clauseSat aF c' = true) :
    ∀ c ∈ f, clauseSat aF c = true := by
  revert h
  unfold unit_prop at hne ⊢
  by_cases he : (collectUnits a f).2.isEmpty
  · simp only [he, if_true] at hne ⊢
    exact fun h => h
  · simp only [he, Bool.false_eq_true, if_false] at hne ⊢
    intro h
    apply rewAll_sat_back _ h
    intro p hp
    have hmem : [(⟨p.1, p.2⟩ : Literal)] ∈ f := by
      apply cu_mem_iff.mp
      rw [show ((p.1, p.2) : Nat × Bool) = p from rfl]
      exact hp
    have hlt : p.1 < a.length :=
      hU _ hmem ⟨p.1, p.2⟩ (List.mem_cons_self _ _)
    apply hext
    have hcons : ∀ q : Bool, [(⟨p.1, q⟩ : Literal)] ∈ f → q = p.2 := by
      intro q hq
      apply @up_consistency a _ _ p.1 q p.2 hq hmem
      unfold unit_prop
      simp only [he, Bool.false_eq_true, if_false]
      exact hne
    rw [unit_prop_fst]
    exact cu_slot_unit hcons hmem hlt

theorem fua_keeps_empty {n : Nat} {a : Assignment} {f : Formula} (h : [] ∈ f) :
    [] ∈ (fullUPAux n a f).2 := by
  induction n generalizing a f with
  | zero => exact h
  | succ n ih =>
    simp only [fullUPAux]
    cases hch : (unit_prop a f).2.2 with
    | true =>
      simp only [hch, if_true]
      exact ih (up_keeps_empty h)
    | false =>
      simp only [hch, Bool.false_eq_true, if_false]
      exact up_keeps_empty h

theorem fua_agrees_pres {n : Nat} {a : Assignment} {f : Formula}
    (hagr : agrees a f) : agrees (fullUPAux n a f).1 (fullUPAux n a f).2 := by
  induction n generalizing a f with
  | zero => exact hagr
  | succ n ih =>
    simp only [fullUPAux]
    cases hch : (unit_prop a f).2.2 with
    | true =>
      simp only [hch, if_true]
      exact ih (up_agrees_pres hagr)
    | false =>
      simp only [hch, Bool.false_eq_true, if_false]
      exact up_agrees_pres hagr

theorem fua_vars_pres {n m : Nat} {a : Assignment} {f : Formula}
    (h : varsBelow m f) : varsBelow m (fullUPAux n a f).2 := by
  induction n generalizing a f with
  | zero => exact h
  | succ n ih =>
    simp only [fullUPAux]
    cases hch : (unit_prop a f).2.2 with
    | true =>
      simp only [hch, if_true]
      exact ih (up_vars_pres h)
    | false =>
      simp only [hch, Bool.false_eq_true, if_false]
      exact up_vars_pres h

theorem fua_slot_stable {n : Nat} {a : Assignment} {f : Formula} {v : Nat}
    {b : Bool} (hagr : agrees a f) (h : slot a v = some b) :
    slot (fullUPAux n a f).1 v = some b := by
  induction n generalizing a f with
  | zero => exact h
  | succ n ih =>
    simp only [fullUPAux]
    cases hch : (unit_prop a f).2.2 with
    | true =>
      simp only [hch, if_true]
      exact ih (up_agrees_pres hagr) (up_slot_stable hagr h)
    | false =>
      simp only [hch, Bool.false_eq_true, if_false]
      exact up_slot_stable hagr h

theorem fua_sat_back {n : Nat} {a : Assignment} {f : Formula} {aF : Assignment}
    (hne : ¬ [] ∈ (fullUPAux n a f).2) (hU : varsBelow a.length f)
    (hagr : agrees a f) (hext : extendsA (fullUPAux n a f).1 aF)
    (h : ∀ c' ∈ (fullUPAux n a f).2, clauseSat aF c' = true) :
    ∀ c ∈ f, clauseSat aF c = true := by
  induction n generalizing a f with
  | zero => exact h
  | succ n ih =>
    simp only [fullUPAux] at hne hext h
    cases hch : (unit_prop a f).2.2 with
    | true =>
      simp only [hch, if_true] at hne hext h
      have hne1 : ¬ [] ∈ (unit_prop a f).2.1 := fun hmem => hne (fua_keeps_empty hmem)
      have hagr1 : agrees (unit_prop a f).1 (unit_prop a f).2.1 := up_agrees_pres hagr
      have hU1 : varsBelow (unit_prop a f).1.length (unit_prop a f).2.1 := by
        rw [unit_prop_length]
        exact up_vars_pres hU
      have hext1 : extendsA (unit_prop a f).1 aF := fun v b hb =>
        hext v b (fua_slot_stable hagr1 hb)
      exact up_sat_back hne1 hU hext1 (ih hne hU1 hagr1 hext h)
    | false =>
      simp only [hch, Bool.false_eq_true, if_false] at hne hext h
      exact up_sat_back hne hU hext h

theorem fua_slot_unit {n : Nat} {a : Assignment} {f : Formula} {v : Nat}
    {b : Bool} (hne : ¬ [] ∈ (fullUPAux (n + 1) a f).2) (hagr : agrees a f)
    (hmem : [(⟨v, b⟩ : Literal)] ∈ f) (hlt : v < a.length) :
    slot (fullUPAux (n + 1) a f).1 v = some b := by
  simp only [fullUPAux] at hne ⊢
  cases hch : (unit_prop a f).2.2 with
  | true =>
    simp only [hch, if_true] at hne ⊢
    have hne1 : ¬ [] ∈ (unit_prop a f).2.1 := fun hm => hne (fua_keeps_empty hm)
    exact fua_slot_stable (up_agrees_pres hagr) (up_slot_unit hne1 hmem hlt)
  | false =>
    simp only [hch, Bool.false_eq_true, if_false] at hne ⊢
    exact up_slot_unit hne hmem hlt

theorem scanLits_some_state {v : Nat} {w : Bool} {c : List Literal}
    {st' : Option Bool} (h : scanLits v (some w) c = some st') : st' = some w := by
  induction c with
  | nil => simpa [scanLits] using h.symm
  | cons l rest ih =>
    simp only [scanLits] at h
    by_cases hv : l.var = v
    · simp only [hv, if_pos rfl] at h
      by_cases hp : w = l.pol
      · simp only [hp, if_pos rfl] at h
        exact ih (hp ▸ h)
      · simp [hp] at h
    · simp only [if_neg hv] at h
      exact ih h

theorem scanLits_occ {v : Nat} {st : Option Bool} {c : List Literal}
    {st' : Option Bool} (h : scanLits v st c = some st') :
    ∀ l ∈ c, l.var = v → st' = some l.pol := by
  induction c generalizing st with
  | nil => simp
  | cons l rest ih =>
    intro l' hl' hv'
    by_cases hv : l.var = v
    · cases st with
      | some w =>
        by_cases hp : w = l.pol
        · have h2 : scanLits v (some w) rest = some st' := by
            simpa [scanLits, hv, hp] using h
          rcases List.mem_cons.mp hl' with h1 | h1
          · subst h1
            rw [scanLits_some_state h2, hp]
          · exact ih h2 l' h1 hv'
        · simp [scanLits, hv, hp] at h
      | none =>
        have h2 : scanLits v (some l.pol) rest = some st' := by
          simpa [scanLits, hv] using h
        rcases List.mem_cons.mp hl' with h1 | h1
        · subst h1
          exact scanLits_some_state h2
        · exact ih h2 l' h1 hv'
    · have h2 : scanLits v st rest = some st' := by
        simpa [scanLits, hv] using h
      rcases List.mem_cons.mp hl' with h1 | h1
      · subst h1; exact absurd hv' hv
      · exact ih h2 l' h1 hv'

theorem scanLits_none_none {v : Nat} {c : List Literal}
    (h : scanLits v none c = some none) : ∀ l ∈ c, l.var ≠ v := by
  intro l hl hv
  have := scanLits_occ h l hl hv
  simp at this

theorem scanClauses_some_state {v : Nat} {w : Bool} {f : Formula}
    {st' : Option Bool} (h : scanClauses v (some w) f = some st') : st' = some w := by
  induction f generalizing w with
  | nil => simpa [scanClauses] using h.symm
  | cons c rest ih =>
    simp only [scanClauses] at h
    cases hs : scanLits v (some w) c with
    | none => rw [hs] at h; simp at h
    | some st1 =>
      rw [hs] at h
      rw [scanLits_some_state hs] at h
      exact ih h

theorem scanClauses_occ {v : Nat} {st : Option Bool} {f : Formula}
    {st' : Option Bool} (h : scanClauses v st f = some st') :
    ∀ c ∈ f, ∀ l ∈ c, l.var = v → st' = some l.pol := by
  induction f generalizing st with
  | nil => simp
  | cons c rest ih =>
    intro c' hc' l hl hv
    simp only [scanClauses] at h
    cases hs : scanLits v st c with
    | none => rw [hs] at h; simp at h
    | some st1 =>
      rw [hs] at h
      rcases List.mem_cons.mp hc' with h1 | h1
      · subst h1
        have h2 := scanLits_occ hs l hl hv
        subst h2
        exact scanClauses_some_state h
      · exact ih h c' h1 l hl hv

theorem is_pure_occ {v : Nat} {f : Formula} {b : Bool}
    (h : is_pure v f = some b) : ∀ c ∈ f, ∀ l ∈ c, l.var = v → l.pol = b := by
  unfold is_pure at h
  cases hs : scanClauses v none f with
  | none => rw [hs] at h; simp at h
  | some st =>
    rw [hs] at h
    subst h
    intro c hc l hl hv
    have := scanClauses_occ hs c hc l hl hv
    injection this with h2
    exact h2.symm

theorem scanClauses_none_no_occ {v : Nat} {f : Formula}
    (h : scanClauses v none f = some none) : ∀ c ∈ f, ∀ l ∈ c, l.var ≠ v := by
  intro c hc l hl hv
  have := scanClauses_occ h c hc l hl hv
  simp at this

theorem is_pure_exists {v : Nat} {f : Formula} {b : Bool}
    (h : is_pure v f = some b) : ∃ c ∈ f, ∃ l ∈ c, l.var = v ∧ l.pol = b := by
  unfold is_pure at h
  cases hs : scanClauses v none f with
  | none => rw [hs] at h; simp at h
  | some st =>
    rw [hs] at h
    subst h
    by_contra hno
    -- if there is no occurrence of v at all, the scan state stays none
    have hnone : ∀ c ∈ f, ∀ l ∈ c, l.var ≠ v := by
      intro c hc l hl hv
      apply hno
      refine ⟨c, hc, l, hl, hv, ?_⟩
      have := scanClauses_occ hs c hc l hl hv
      injection this with h2
      exact h2.symm
    rw [scanClauses_no_occ none hnone] at hs
    injection hs with h2
    simp at h2

theorem plStep_keeps_empty {i : Nat} {st : Assignment × Formula}
    (h : [] ∈ st.2) : [] ∈ (plStep i st).2 := by
  unfold plStep
  cases hp : is_pure (i % 65536) st.2 with
  | none => exact h
  | some b =>
    exact List.mem_append_left _ (List.mem_filter.mpr ⟨h, rfl⟩)

theorem plStep_extends {i : Nat} {st : Assignment × Formula}
    (hi : i < 65536) (hagr : agrees st.1 st.2) :
    extendsA st.1 (plStep i st).1 := by
  intro v b hv
  unfold plStep
  cases hp : is_pure (i % 65536) st.2 with
  | none => exact hv
  | some p =>
    by_cases hvi : v = i
    · subst hvi
      obtain ⟨c, hc, l, hl, hvar, hpol⟩ := is_pure_exists hp
      have hbp : b = p := by
        have h2 := hagr c hc l hl b (by rwa [hvar, Nat.mod_eq_of_lt hi])
        rw [hpol] at h2
        exact h2.symm
      rw [hbp]
      exact slot_set_self st.1 v (some p) (slot_some_lt hv)
    · rw [slot_set_ne st.1 i v (some p) (fun h2 => hvi h2.symm)]
      exact hv

theorem plStep_agrees {i : Nat} {st : Assignment × Formula}
    (hi : i < 65536) (hagr : agrees st.1 st.2) :
    agrees (plStep i st).1 (plStep i st).2 := by
  intro c hc l hl b hb
  unfold plStep at hc hb
  cases hp : is_pure (i % 65536) st.2 with
  | none =>
    simp only [hp] at hc hb
    exact hagr c hc l hl b hb
  | some p =>
    simp only [hp] at hc hb
    rcases List.mem_append.mp hc with hcf | hcn
    · have hcf2 := List.mem_filter.mp hcf
      by_cases hvi : l.var = i
      · have hpol := is_pure_occ hp c hcf2.1 l hl (by rw [hvi, Nat.mod_eq_of_lt hi])
        rw [hvi] at hb
        by_cases hlen : i < st.1.length
        · rw [slot_set_self st.1 i (some p) hlen] at hb
          injection hb with hb
          rw [hpol, hb]
        · rw [List.set_eq_of_length_le (Nat.le_of_not_lt hlen)] at hb
          obtain ⟨c2, hc2, l2, hl2, hvar2, hpol2⟩ := is_pure_exists hp
          have h2 := hagr c2 hc2 l2 hl2 b
            (by rwa [hvar2, Nat.mod_eq_of_lt hi])
          rw [hpol2] at h2
          rw [hpol, ← h2]
      · rw [slot_set_ne st.1 i l.var (some p) (fun h2 => hvi h2.symm)] at hb
        exact hagr c hcf2.1 l hl b hb
    · have hc2 : c = [(⟨i % 65536, p⟩ : Literal)] := by simpa using hcn
      subst hc2
      have hl2 : l = (⟨i % 65536, p⟩ : Literal) := by simpa using hl
      subst hl2
      simp only [Nat.mod_eq_of_lt hi] at hb ⊢
      by_cases hlen : i < st.1.length
      · rw [slot_set_self st.1 i (some p) hlen] at hb
        exact Option.some.inj hb
      · rw [List.set_eq_of_length_le (Nat.le_of_not_lt hlen)] at hb
        obtain ⟨c2, hc2, l2, hl2, hvar2, hpol2⟩ := is_pure_exists hp
        have h2 := hagr c2 hc2 l2 hl2 b
          (by rwa [hvar2, Nat.mod_eq_of_lt hi])
        rw [hpol2] at h2
        exact h2

theorem plStep_vars {i n : Nat} {st : Assignment × Formula}
    (hi : i < n) (hn : n ≤ 65536) (hvb : varsBelow n st.2) :
    varsBelow n (plStep i st).2 := by
  intro c hc l hl
  unfold plStep at hc
  cases hp : is_pure (i % 65536) st.2 with
  | none =>
    simp only [hp] at hc
    exact hvb c hc l hl
  | some p =>
    simp only [hp] at hc
    rcases List.mem_append.mp hc with hcf | hcn
    · exact hvb c (List.mem_filter.mp hcf).1 l hl
    · have hc2 : c = [(⟨i % 65536, p⟩ : Literal)] := by simpa using hcn
      subst hc2
      have hl2 : l = (⟨i % 65536, p⟩ : Literal) := by simpa using hl
      subst hl2
      simpa [Nat.mod_eq_of_lt (Nat.lt_of_lt_of_le hi hn)] using hi

theorem plStep_sat_back {i : Nat} {st : Assignment × Formula} {aF : Assignment}
    (hi : i < 65536) (hlen : i < st.1.length)
    (hext : extendsA (plStep i st).1 aF)
    (h : ∀ c' ∈ (plStep i st).2, clauseSat aF c' = true) :
    ∀ c ∈ st.2, clauseSat aF c = true := by
  intro c hc
  unfold plStep at hext h
  cases hp : is_pure (i % 65536) st.2 with
  | none =>
    simp only [hp] at h
    exact h c hc
  | some p =>
    simp only [hp] at hext h
    by_cases hkeep :
        (! c.any fun l => l.var == i % 65536 && l.pol == p) = true
    · exact h c (List.mem_append_left _ (List.mem_filter.mpr ⟨hc, hkeep⟩))
    · have hocc : ∃ l ∈ c, l.var = i % 65536 ∧ l.pol = p := by
        simp only [Bool.not_eq_true', Bool.not_eq_false] at hkeep
        obtain ⟨l, hl, hl2⟩ := List.any_eq_true.mp hkeep
        exact ⟨l, hl, by simpa using hl2⟩
      obtain ⟨l, hl, hvar, hpol⟩ := hocc
      have hslot : slot aF l.var = some l.pol := by
        rw [hvar, hpol, Nat.mod_eq_of_lt hi]
        exact hext i p (slot_set_self st.1 i (some p) hlen)
      unfold clauseSat
      exact List.any_eq_true.mpr ⟨l, hl, by simp [litTrue, hslot]⟩

theorem plFold_inv {L : List Nat} {n : Nat} {st : Assignment × Formula}
    (hL : ∀ i ∈ L, i < n) (hn : n ≤ 65536)
    (hlen : st.1.length = n) (hagr : agrees st.1 st.2)
    (hvb : varsBelow n st.2) :
    (L.foldl (fun s i => plStep i s) st).1.length = n ∧
      agrees (L.foldl (fun s i => plStep i s) st).1
        (L.foldl (fun s i => plStep i s) st).2 ∧
      varsBelow n (L.foldl (fun s i => plStep i s) st).2 := by
  induction L generalizing st with
  | nil => exact ⟨hlen, hagr, hvb⟩
  | cons i L ih =>
    have hi : i < n := hL i (List.mem_cons_self i L)
    simp only [List.foldl_cons]
    exact ih (fun j hj => hL j (List.mem_cons_of_mem i hj))
      (by rw [plStep_length]; exact hlen)
      (plStep_agrees (Nat.lt_of_lt_of_le hi hn) hagr)
      (plStep_vars hi hn hvb)

theorem plFold_extends {L : List Nat} {n : Nat} {st : Assignment × Formula}
    (hL : ∀ i ∈ L, i < n) (hn : n ≤ 65536)
    (hlen : st.1.length = n) (hagr : agrees st.1 st.2)
    (hvb : varsBelow n st.2) :
    extendsA st.1 (L.foldl (fun s i => plStep i s) st).1 := by
  induction L generalizing st with
  | nil => exact fun v b h => h
  | cons i L ih =>
    have hi : i < n := hL i (List.mem_cons_self i L)
    simp only [List.foldl_cons]
    intro v b hv
    exact ih (fun j hj => hL j (List.mem_cons_of_mem i hj))
      (by rw [plStep_length]; exact hlen)
      (plStep_agrees (Nat.lt_of_lt_of_le hi hn) hagr)
      (plStep_vars hi hn hvb) v b
      (plStep_extends (Nat.lt_of_lt_of_le hi hn) hagr v b hv)

theorem plFold_keeps_empty {L : List Nat} {st : Assignment × Formula}
    (h : [] ∈ st.2) : [] ∈ (L.foldl (fun s i => plStep i s) st).2 := by
  induction L generalizing st with
  | nil => exact h
  | cons i L ih =>
    simp only [List.foldl_cons]
    exact ih (plStep_keeps_empty h)

theorem plFold_sat_back {L : List Nat} {n : Nat} {st : Assignment × Formula}
    {aF : Assignment}
    (hL : ∀ i ∈ L, i < n) (hn : n ≤ 65536)
    (hlen : st.1.length = n) (hagr : agrees st.1 st.2)
    (hvb : varsBelow n st.2)
    (hext : extendsA (L.foldl (fun s i => plStep i s) st).1 aF)
    (h : ∀ c' ∈ (L.foldl (fun s i => plStep i s) st).2, clauseSat aF c' = true) :
    ∀ c ∈ st.2, clauseSat aF c = true := by
  induction L generalizing st with
  | nil => exact h
  | cons i L ih =>
    simp only [List.foldl_cons] at hext h
    have hi : i < n := hL i (List.mem_cons_self i L)
    have hL' : ∀ j ∈ L, j < n := fun j hj => hL j (List.mem_cons_of_mem i hj)
    have hlen' : (plStep i st).1.length = n := by rw [plStep_length]; exact hlen
    have hagr' : agrees (plStep i st).1 (plStep i st).2 :=
      plStep_agrees (Nat.lt_of_lt_of_le hi hn) hagr
    have hvb' : varsBelow n (plStep i st).2 := plStep_vars hi hn hvb
    have hsat' : ∀ c' ∈ (plStep i st).2, clauseSat aF c' = true :=
      ih hL' hlen' hagr' hvb' hext h
    have hext1 : extendsA (plStep i st).1 aF := fun v b hv =>
      hext v b (plFold_extends hL' hn hlen' hagr' hvb' v b hv)
    exact plStep_sat_back (Nat.lt_of_lt_of_le hi hn)
      (by rw [hlen]; exact hi) hext1 hsat'

theorem pure_lit_elim_def (a : Assignment) (f : Formula) :
    pure_lit_elim a f
      = (List.range a.length).foldl (fun s i => plStep i s) (a, f) := rfl

theorem fup_def (a : Assignment) (f : Formula) :
    full_unit_prop a f = fullUPAux (fsize f + 1) a f := rfl

theorem slot_replicate_none (n v : Nat) :
    slot (List.replicate n none) v = none := by
  induction n generalizing v with
  | zero => simp [slot]
  | succ n ih =>
    cases v with
    | zero => simp [List.replicate, slot]
    | succ v => simpa [List.replicate, slot] using ih v

theorem getLast?_some_split {α : Type} {l : List α} {x : α}
    (h : l.getLast? = some x) : l.dropLast ++ [x] = l := by
  induction l with
  | nil => simp at h
  | cons a rest ih =>
    cases rest with
    | nil =>
      simp only [List.getLast?_singleton] at h
      injection h with h
      simp [h]
    | cons b rest2 =>
      have h2 : (b :: rest2).getLast? = some x := by
        simpa [List.getLast?_cons_cons] using h
      have h3 := ih h2
      simp only [List.dropLast_cons₂, List.cons_append]
      rw [h3]

theorem dpll_empty_no_true {fuel : Nat} {a : Assignment} {f : Formula}
    (h : [] ∈ f) (a' : Assignment) (f' : Formula) :
    dpll fuel a f ≠ .ok true a' f' := by
  cases fuel with
  | zero => intro hc; exact DRes.noConfusion hc
  | succ fuel =>
    rcases hq : pure_lit_elim (full_unit_prop a f).1 (full_unit_prop a f).2
      with ⟨a1, f1⟩
    rw [dpll_succ_simp fuel a f a1 f1 hq]
    have hP : [] ∈ (full_unit_prop a f).2 := by
      rw [fup_def]
      exact fua_keeps_empty h
    have hQ : [] ∈ f1 := by
      have h2 := @plFold_keeps_empty
        (List.range (full_unit_prop a f).1.length)
        ((full_unit_prop a f).1, (full_unit_prop a f).2) hP
      rw [← pure_lit_elim_def, hq] at h2
      exact h2
    have he : f1.isEmpty = false := by
      cases f1 with
      | nil => simp at hQ
      | cons c rest => rfl
    have hae : f1.any List.isEmpty = true :=
      List.any_eq_true.mpr ⟨[], hQ, rfl⟩
    rw [he, hae, if_neg (fun hc => Bool.noConfusion hc), if_pos rfl]
    intro hc
    injection hc with hb
    exact Bool.noConfusion hb

theorem dpll_ok_false_empty : ∀ {fuel : Nat} {a : Assignment} {f : Formula}
    {a' : Assignment} {f' : Formula},
    dpll fuel a f = .ok false a' f' → [] ∈ f' := by
  intro fuel
  induction fuel with
  | zero =>
    intro a f a' f' h
    exact absurd h (fun hc => DRes.noConfusion hc)
  | succ fuel ih =>
    intro a f a' f' hres
    rcases hq : pure_lit_elim (full_unit_prop a f).1 (full_unit_prop a f).2
      with ⟨a1, f1⟩
    rw [dpll_succ_simp fuel a f a1 f1 hq] at hres
    by_cases he : f1.isEmpty = true
    · rw [if_pos he] at hres
      exact absurd hres (fun hc => by injection hc with hb; exact Bool.noConfusion hb)
    · rw [if_neg he] at hres
      by_cases hae : f1.any List.isEmpty = true
      · rw [if_pos hae] at hres
        injection hres with hb ha hf
        obtain ⟨c, hc, hce⟩ := List.any_eq_true.mp hae
        have hce2 : c = [] := by
          cases c with
          | nil => rfl
          | cons l ls => simp [List.isEmpty] at hce
        rw [← hf, ← hce2]
        exact hc
      · rw [if_neg hae] at hres
        cases hx : firstNone a1 with
        | none =>
          simp only [hx] at hres
          exact absurd hres (fun hc => DRes.noConfusion hc)
        | some x =>
          simp only [hx] at hres
          cases hr : dpll fuel a1 (f1 ++ [[⟨x % 65536, true⟩]]) with
          | fuelOut =>
            simp only [hr] at hres
            exact absurd hres (fun hc => DRes.noConfusion hc)
          | crash =>
            simp only [hr] at hres
            exact absurd hres (fun hc => DRes.noConfusion hc)
          | ok bb a2 f2 =>
            cases bb with
            | true =>
              simp only [hr] at hres
              injection hres with hb ha hf
              exact absurd hb (fun hc => Bool.noConfusion hc)
            | false =>
              simp only [hr] at hres
              cases hl : f2.getLast? with
              | none =>
                simp only [hl] at hres
                exact absurd hres (fun hc => DRes.noConfusion hc)
              | some c2 =>
                cases c2 with
                | nil =>
                  simp only [hl] at hres
                  exact absurd hres (fun hc => DRes.noConfusion hc)
                | cons l ls =>
                  simp only [hl] at hres
                  exact ih hres

theorem ple_inv {a : Assignment} {f : Formula} (hn : a.length ≤ 65536)
    (hagr : agrees a f) (hvb : varsBelow a.length f) :
    (pure_lit_elim a f).1.length = a.length ∧
      agrees (pure_lit_elim a f).1 (pure_lit_elim a f).2 ∧
      varsBelow a.length (pure_lit_elim a f).2 ∧
      extendsA a (pure_lit_elim a f).1 := by
  rw [pure_lit_elim_def]
  have hrange : ∀ i ∈ List.range a.length, i < a.length :=
    fun i hi => List.mem_range.mp hi
  obtain ⟨h1, h2, h3⟩ :=
    @plFold_inv (List.range a.length) a.length (a, f) hrange hn rfl hagr hvb
  exact ⟨h1, h2, h3,
    @plFold_extends (List.range a.length) a.length (a, f) hrange hn rfl hagr hvb⟩

theorem ple_keeps_empty {a : Assignment} {f : Formula} (h : [] ∈ f) :
    [] ∈ (pure_lit_elim a f).2 := by
  rw [pure_lit_elim_def]
  exact plFold_keeps_empty h

theorem ple_sat_back {a : Assignment} {f : Formula} {aF : Assignment}
    (hn : a.length ≤ 65536) (hagr : agrees a f) (hvb : varsBelow a.length f)
    (hext : extendsA (pure_lit_elim a f).1 aF)
    (h : ∀ c' ∈ (pure_lit_elim a f).2, clauseSat aF c' = true) :
    ∀ c ∈ f, clauseSat aF c = true := by
  rw [pure_lit_elim_def] at hext h
  have hrange : ∀ i ∈ List.range a.length, i < a.length :=
    fun i hi => List.mem_range.mp hi
  exact @plFold_sat_back (List.range a.length) a.length (a, f) aF
    hrange hn rfl hagr hvb hext h

theorem dpll_sound_aux : ∀ {fuel : Nat} {a : Assignment} {f : Formula}
    {a' : Assignment} {f' : Formula},
    a.length ≤ 65536 → varsBelow a.length f → agrees a f →
    dpll fuel a f = .ok true a' f' →
    (∀ c ∈ f, clauseSat a' c = true) ∧ extendsA a a' := by
  intro fuel
  induction fuel with
  | zero =>
    intro a f a' f' _ _ _ h
    exact absurd h (fun hc => DRes.noConfusion hc)
  | succ fuel ih =>
    intro a f a' f' hlen hvb hagr hres
    rcases hq : pure_lit_elim (full_unit_prop a f).1 (full_unit_prop a f).2
      with ⟨a1, f1⟩
    rw [dpll_succ_simp fuel a f a1 f1 hq] at hres
    have hP1len : (full_unit_prop a f).1.length = a.length :=
      full_unit_prop_length a f
    have hPagr : agrees (full_unit_prop a f).1 (full_unit_prop a f).2 := by
      rw [fup_def]
      exact fua_agrees_pres hagr
    have hPvb : varsBelow a.length (full_unit_prop a f).2 := by
      rw [fup_def]
      exact fua_vars_pres hvb
    have hPext : extendsA a (full_unit_prop a f).1 := by
      rw [fup_def]
      exact fun v b h => fua_slot_stable hagr h
    have hPvb' : varsBelow (full_unit_prop a f).1.length (full_unit_prop a f).2 := by
      rw [hP1len]
      exact hPvb
    have hP1le : (full_unit_prop a f).1.length ≤ 65536 := by
      rw [hP1len]
      exact hlen
    have hQlen : a1.length = (full_unit_prop a f).1.length := by
      have h2 := (ple_inv hP1le hPagr hPvb').1
      rw [hq] at h2
      exact h2
    have hQagr : agrees a1 f1 := by
      have h2 := (ple_inv hP1le hPagr hPvb').2.1
      rw [hq] at h2
      exact h2
    have hQvb : varsBelow (full_unit_prop a f).1.length f1 := by
      have h2 := (ple_inv hP1le hPagr hPvb').2.2.1
      rw [hq] at h2
      exact h2
    have hQext : extendsA (full_unit_prop a f).1 a1 := by
      have h2 := (ple_inv hP1le hPagr hPvb').2.2.2
      rw [hq] at h2
      exact h2
    have hQlen' : a1.length = a.length := by rw [hQlen, hP1len]
    have hQvb' : varsBelow a1.length f1 := by
      rw [hQlen]
      exact hQvb
    by_cases he : f1.isEmpty = true
    · rw [if_pos he] at hres
      injection hres with hb ha hf
      subst ha
      subst hf
      have hf1 : f1 = [] := by
        cases f1 with
        | nil => rfl
        | cons c r => simp [List.isEmpty] at he
      have hneP : ¬ [] ∈ (full_unit_prop a f).2 := by
        intro hm
        have h2 := @ple_keeps_empty (full_unit_prop a f).1 _ hm
        rw [hq] at h2
        rw [hf1] at h2
        simp at h2
      have hext2 : extendsA (pure_lit_elim (full_unit_prop a f).1
          (full_unit_prop a f).2).1 a1 := by
        rw [hq]
        exact fun v b h => h
      have hsat2 : ∀ c' ∈ (pure_lit_elim (full_unit_prop a f).1
          (full_unit_prop a f).2).2, clauseSat a1 c' = true := by
        rw [hq]
        intro c' hc'
        rw [hf1] at hc'
        simp at hc'
      have hsatP := ple_sat_back hP1le hPagr hPvb' hext2 hsat2
      have hsatF : ∀ c ∈ f, clauseSat a1 c = true := by
        have hneP' : ¬ [] ∈ (fullUPAux (fsize f + 1) a f).2 := by
          rw [← fup_def]
          exact hneP
        have hextP : extendsA (fullUPAux (fsize f + 1) a f).1 a1 := by
          rw [← fup_def]
          exact hQext
        have hsatP' : ∀ c' ∈ (fullUPAux (fsize f + 1) a f).2,
            clauseSat a1 c' = true := by
          rw [← fup_def]
          exact hsatP
        exact fua_sat_back hneP' hvb hagr hextP hsatP'
      exact ⟨hsatF, fun v b h => hQext v b (hPext v b h)⟩
    · rw [if_neg he] at hres
      by_cases hae : f1.any List.isEmpty = true
      · rw [if_pos hae] at hres
        injection hres with hb
        exact absurd hb (fun hc => Bool.noConfusion hc)
      · rw [if_neg hae] at hres
        have hne1 : ¬ [] ∈ f1 := fun hm =>
          hae (List.any_eq_true.mpr ⟨[], hm, rfl⟩)
        have hneP : ¬ [] ∈ (full_unit_prop a f).2 := by
          intro hm
          have h2 := @ple_keeps_empty (full_unit_prop a f).1 _ hm
          rw [hq] at h2
          exact hne1 h2
        cases hx : firstNone a1 with
        | none =>
          simp only [hx] at hres
          exact absurd hres (fun hc => DRes.noConfusion hc)
        | some x =>
          simp only [hx] at hres
          have hxlt : x < a1.length := firstNone_some_lt a1 x hx
          have hxnone : slot a1 x = none := firstNone_some_none a1 x hx
          have hxmod : x % 65536 = x :=
            Nat.mod_eq_of_lt (Nat.lt_of_lt_of_le hxlt (hQlen' ▸ hlen))
          have hvb2 : varsBelow a1.length (f1 ++ [[⟨x % 65536, true⟩]]) := by
            intro c hc l hl
            rcases List.mem_append.mp hc with h1 | h1
            · exact hQvb' c h1 l hl
            · have hc2 : c = [(⟨x % 65536, true⟩ : Literal)] := by simpa using h1
              subst hc2
              have hl2 : l = (⟨x % 65536, true⟩ : Literal) := by simpa using hl
              subst hl2
              simpa [hxmod] using hxlt
          have hagr2 : agrees a1 (f1 ++ [[⟨x % 65536, true⟩]]) := by
            intro c hc l hl b hb
            rcases List.mem_append.mp hc with h1 | h1
            · exact hQagr c h1 l hl b hb
            · have hc2 : c = [(⟨x % 65536, true⟩ : Literal)] := by simpa using h1
              subst hc2
              have hl2 : l = (⟨x % 65536, true⟩ : Literal) := by simpa using hl
              subst hl2
              simp only [hxmod] at hb
              rw [hxnone] at hb
              exact Option.noConfusion hb
          cases hr : dpll fuel a1 (f1 ++ [[⟨x % 65536, true⟩]]) with
          | fuelOut =>
            simp only [hr] at hres
            exact absurd hres (fun hc => DRes.noConfusion hc)
          | crash =>
            simp only [hr] at hres
            exact absurd hres (fun hc => DRes.noConfusion hc)
          | ok bb a2 f2 =>
            cases bb with
            | true =>
              simp only [hr] at hres
              injection hres with hb ha hf
              subst ha
              obtain ⟨hsatB, hextB⟩ :=
                ih (by rw [hQlen']; exact hlen) hvb2 hagr2 hr
              have hsat1 : ∀ c' ∈ f1, clauseSat a2 c' = true :=
                fun c hc => hsatB c (List.mem_append_left _ hc)
              have hext2 : extendsA (pure_lit_elim (full_unit_prop a f).1
                  (full_unit_prop a f).2).1 a2 := by
                rw [hq]
                exact hextB
              have hsat2 : ∀ c' ∈ (pure_lit_elim (full_unit_prop a f).1
                  (full_unit_prop a f).2).2, clauseSat a2 c' = true := by
                rw [hq]
                exact hsat1
              have hsatP := ple_sat_back hP1le hPagr hPvb' hext2 hsat2
              have hsatF : ∀ c ∈ f, clauseSat a2 c = true := by
                have hneP' : ¬ [] ∈ (fullUPAux (fsize f + 1) a f).2 := by
                  rw [← fup_def]
                  exact hneP
                have hextP : extendsA (fullUPAux (fsize f + 1) a f).1 a2 := by
                  rw [← fup_def]
                  exact fun v b h => hextB v b (hQext v b h)
                have hsatP' : ∀ c' ∈ (fullUPAux (fsize f + 1) a f).2,
                    clauseSat a2 c' = true := by
                  rw [← fup_def]
                  exact hsatP
                exact fua_sat_back hneP' hvb hagr hextP hsatP'
              exact ⟨hsatF, fun v b h => hextB v b (hQext v b (hPext v b h))⟩
            | false =>
              simp only [hr] at hres
              have hf2e : [] ∈ f2 := dpll_ok_false_empty hr
              cases hl : f2.getLast? with
              | none =>
                simp only [hl] at hres
                exact absurd hres (fun hc => DRes.noConfusion hc)
              | some c2 =>
                cases c2 with
                | nil =>
                  simp only [hl] at hres
                  exact absurd hres (fun hc => DRes.noConfusion hc)
                | cons l ls =>
                  simp only [hl] at hres
                  have hsplit := getLast?_some_split hl
                  have hmem0 : [] ∈ f2.dropLast ++ [l :: ls] := by
                    rw [hsplit]
                    exact hf2e
                  have hmem : [] ∈ f2.dropLast ++ [(⟨l.var, false⟩ : Literal) :: ls] := by
                    rcases List.mem_append.mp hmem0 with h1 | h1
                    · exact List.mem_append_left _ h1
                    · exfalso
                      have h2 : ([] : List Literal) = l :: ls := by simpa using h1
                      exact List.noConfusion h2
                  exact absurd hres (dpll_empty_no_true hmem a' f')

/-- C1 (amended): for assignment arrays of at most 65536 slots (where the
`as u16` truncations are the identity), starting from an all-unassigned
array, if `dpll` returns `true` then the final assignment contents make at
least one literal true in every clause of the original formula. -/
theorem c1_soundness_amended (fuel n : Nat) (f : Formula) (a' : Assignment)
    (f' : Formula) (hn : n ≤ 65536) (hvb : varsBelow n f)
    (hres : dpll fuel (List.replicate n none) f = .ok true a' f') :
    ∀ c ∈ f, clauseSat a' c = true := by
  have hlen : (List.replicate n (none : Option Bool)).length = n :=
    List.length_replicate n none
  have hagr : agrees (List.replicate n none) f := by
    intro c hc l hl b hb
    rw [slot_replicate_none] at hb
    exact Option.noConfusion hb
  exact (dpll_sound_aux (by rw [hlen]; exact hn) (by rw [hlen]; exact hvb)
    hagr hres).1

theorem c1_soundness_amended_witness :
    2 ≤ 65536 ∧
      clauseSat [some true, some false] [(⟨0, true⟩ : Literal)] = true :=
  ⟨by decide,
    c1_soundness_amended 3 2 [[⟨0, true⟩], [⟨1, false⟩]]
      [some true, some false] [] (by decide)
      (by unfold varsBelow; decide)
      (by decide)
      [(⟨0, true⟩ : Literal)] (by decide)⟩
